import Mathlib

/-!
Verification of the sourcezen repository-data access layer.

This file gives a shallow embedding, in Lean 4, of the GitHub API access
layer of the sourcezen repository (the `lib/github/api` module, the
`services/GitHubService` module and the `lib/github/fileUtils` module),
and proves or refutes the specified properties of that layer.

Conventions of the embedding:
* JavaScript strings are modelled as `String` or as `List Char` (for the
  functions that scan character by character); byte values and UTF-16
  code units are modelled as `Nat`.
* JavaScript objects used as string-keyed dictionaries, and `Map`s, are
  modelled as association lists `List (κ × β)` with the JS insertion-order
  semantics: assignment overwrites in place, new keys are appended,
  `delete` removes the entry with the key.
* `async` control flow is modelled either as pure functions from inputs
  to results (when the interleaving cannot affect the result) or as an
  explicit event-driven state machine (for the in-flight request
  coalescing, where interleaving is the whole point).
-/

set_option linter.unusedVariables false

/-! ## Association-list primitives (model of JS object / Map operations) -/

/-- Model of a JS dictionary lookup `m[k]` / `map.get(k)`: first entry with the key. -/
def alookup {κ β : Type} [DecidableEq κ] (k : κ) : List (κ × β) → Option β
  | [] => none
  | p :: ps => if p.1 = k then some p.2 else alookup k ps

/-- Model of JS assignment `m[k] = v` / `map.set(k, v)`: overwrite in place,
append when the key is absent. -/
def setKey {κ β : Type} [DecidableEq κ] : List (κ × β) → κ → β → List (κ × β)
  | [], k, v => [(k, v)]
  | p :: ps, k, v => if p.1 = k then (k, v) :: ps else p :: setKey ps k v

/-- Model of JS `delete m[k]` / `map.delete(k)`: remove the entry with the key. -/
def delKey {κ β : Type} [DecidableEq κ] : List (κ × β) → κ → List (κ × β)
  | [], _ => []
  | p :: ps, k => if p.1 = k then ps else p :: delKey ps k

theorem alookup_setKey_self {κ β : Type} [DecidableEq κ] (m : List (κ × β)) (k : κ) (v : β) :
    alookup k (setKey m k v) = some v := by
  induction m with
  | nil => simp [setKey, alookup]
  | cons p ps ih =>
    by_cases h : p.1 = k
    · simp [setKey, h, alookup]
    · simp [setKey, h, alookup, ih]

theorem alookup_setKey_ne {κ β : Type} [DecidableEq κ] (m : List (κ × β)) (k k' : κ) (v : β)
    (h : k' ≠ k) : alookup k' (setKey m k v) = alookup k' m := by
  have hkk : ¬ (k = k') := fun h' => h h'.symm
  induction m with
  | nil => simp [setKey, alookup, hkk]
  | cons p ps ih =>
    by_cases hp : p.1 = k
    · simp [setKey, hp, alookup, hkk]
    · simp only [setKey, hp, if_false, alookup]
      by_cases hp' : p.1 = k'
      · simp [hp']
      · simp [hp', ih]

theorem setKey_ne_nil {κ β : Type} [DecidableEq κ] (m : List (κ × β)) (k : κ) (v : β) :
    setKey m k v ≠ [] := by
  cases m with
  | nil => simp [setKey]
  | cons p ps =>
    by_cases h : p.1 = k <;> simp [setKey, h]

theorem alookup_delKey_ne {κ β : Type} [DecidableEq κ] (m : List (κ × β)) (k k' : κ)
    (h : k' ≠ k) : alookup k' (delKey m k) = alookup k' m := by
  induction m with
  | nil => simp [delKey]
  | cons p ps ih =>
    by_cases hp : p.1 = k
    · have hp' : ¬ (p.1 = k') := fun hc => h (hp ▸ hc ▸ rfl)
      have hkk : ¬ (k = k') := fun hc => h hc.symm
      simp [delKey, hp, alookup, hp', hkk]
    · simp only [delKey, hp, if_false, alookup]
      by_cases hp' : p.1 = k'
      · simp [hp']
      · simp [hp', ih]

theorem mem_delKey_of_ne {κ β : Type} [DecidableEq κ] (m : List (κ × β)) (k : κ)
    (p : κ × β) (hp : p ∈ m) (hne : p.1 ≠ k) : p ∈ delKey m k := by
  induction m with
  | nil => simp at hp
  | cons q qs ih =>
    rcases List.mem_cons.1 hp with heq | hmem
    · subst heq
      simp [delKey, hne]
    · by_cases hq : q.1 = k
      · simp only [delKey, hq, if_true]
        exact hmem
      · simp only [delKey, hq, if_false]
        exact List.mem_cons_of_mem _ (ih hmem)

theorem mem_of_mem_delKey {κ β : Type} [DecidableEq κ] (m : List (κ × β)) (k : κ)
    (p : κ × β) (hp : p ∈ delKey m k) : p ∈ m := by
  induction m with
  | nil => simp [delKey] at hp
  | cons q qs ih =>
    by_cases hq : q.1 = k
    · simp only [delKey, hq, if_true] at hp
      exact List.mem_cons_of_mem _ hp
    · simp only [delKey, hq, if_false, List.mem_cons] at hp
      rcases hp with rfl | hp
      · exact List.mem_cons_self _ _
      · exact List.mem_cons_of_mem _ (ih hp)

theorem delKey_sublist {κ β : Type} [DecidableEq κ] (m : List (κ × β)) (k : κ) :
    (delKey m k).Sublist m := by
  induction m with
  | nil => simp [delKey]
  | cons q qs ih =>
    by_cases hq : q.1 = k
    · simpa [delKey, hq] using List.sublist_cons_self q qs
    · simpa [delKey, hq] using ih.cons₂ q

theorem keyNotMem_delKey {κ β : Type} [DecidableEq κ] (m : List (κ × β)) (k : κ)
    (hnd : (m.map Prod.fst).Nodup) (p : κ × β) (hp : p ∈ delKey m k) : p.1 ≠ k := by
  induction m with
  | nil => simp [delKey] at hp
  | cons q qs ih =>
    simp only [List.map_cons, List.nodup_cons] at hnd
    by_cases hq : q.1 = k
    · simp only [delKey, hq, if_true] at hp
      intro hcontra
      have hmem : p.1 ∈ qs.map Prod.fst := List.mem_map_of_mem Prod.fst hp
      rw [hcontra, ← hq] at hmem
      exact hnd.1 hmem
    · simp only [delKey, hq, if_false, List.mem_cons] at hp
      rcases hp with heq | hp
      · exact heq ▸ hq
      · exact ih hnd.2 hp

theorem alookup_some_mem {κ β : Type} [DecidableEq κ] (m : List (κ × β)) (k : κ) (v : β)
    (h : alookup k m = some v) : (k, v) ∈ m := by
  induction m with
  | nil => simp [alookup] at h
  | cons p ps ih =>
    obtain ⟨p1, p2⟩ := p
    by_cases hp : p1 = k
    · subst hp
      simp [alookup] at h
      subst h
      exact List.mem_cons_self _ _
    · simp only [alookup, hp, if_false] at h
      exact List.mem_cons_of_mem _ (ih h)

theorem alookup_delKey_self {κ β : Type} [DecidableEq κ] (m : List (κ × β)) (k : κ)
    (hnd : (m.map Prod.fst).Nodup) : alookup k (delKey m k) = none := by
  cases hcase : alookup k (delKey m k) with
  | none => rfl
  | some v =>
    exact absurd rfl (keyNotMem_delKey m k hnd (k, v) (alookup_some_mem _ _ _ hcase))

theorem alookup_eq_none_iff {κ β : Type} [DecidableEq κ] (m : List (κ × β)) (k : κ) :
    alookup k m = none ↔ k ∉ m.map Prod.fst := by
  induction m with
  | nil => simp [alookup]
  | cons p ps ih =>
    by_cases hp : p.1 = k
    · simp [alookup, hp]
    · have hp' : ¬ (k = p.1) := fun hc => hp hc.symm
      simp [alookup, hp, ih, hp']

/-! ## `parseRepoUrl` (lib/github/api, lines 93–120)

The source matches the URL against two regular expressions:
  `/github\.com\/([^\/]+)\/([^\/\.]+)(\.git)?$/` and
  `/github\.com:([^\/]+)\/([^\/\.]+)(\.git)?$/`.
`String.prototype.match` with a non-global regex returns the leftmost
successful match; neither pattern is anchored at the start of the string.
The embedding makes the leftmost-scan explicit: `scanFor` tries every
start position in order, and `matchGitTail` decides whether
`([^\/]+)\/([^\/\.]+)(\.git)?$` matches the remainder of the string at a
given position (group 1 cannot contain `/`, so the separator is forced to
be the first `/` of the remainder, and the tail after group 2 must be
empty or exactly `.git`; no other backtracking is possible). -/

/-- `listStartsWith m l` : `m` is an initial segment of `l`. -/
def listStartsWith : List Char → List Char → Bool
  | [], _ => true
  | _ :: _, [] => false
  | m :: ms, c :: cs => if m = c then listStartsWith ms cs else false

/-- `containsSub needle l` : `needle` occurs as a contiguous sublist of `l`
(model of JS `String.prototype.includes`). -/
def containsSub (needle : List Char) : List Char → Bool
  | [] => listStartsWith needle []
  | c :: rest => listStartsWith needle (c :: rest) || containsSub needle rest

/-- Decide `([^\/\.]+)(\.git)?$` against the group-2 region `b`:
either `b` itself is a nonempty dot-free segment, or `b` is such a
segment followed by the literal `.git`. Returns the group-2 capture. -/
def checkRepoSeg (b : List Char) : Option (List Char) :=
  if b ≠ [] ∧ '.' ∉ b then some b
  else
    if 5 ≤ b.length ∧ b.drop (b.length - 4) = ['.', 'g', 'i', 't'] ∧
        '.' ∉ b.take (b.length - 4) then
      some (b.take (b.length - 4))
    else none

/-- The character class `[^\/]` of the regexes. -/
def isNotSlash (c : Char) : Bool :=
  if c = '/' then false else true

/-- Decide `([^\/]+)\/([^\/\.]+)(\.git)?$` against the remainder `r` of the
URL after the `github.com/` (resp. `github.com:`) literal. Group 1 is the
maximal `/`-free run; the rest must be `/` followed by a `/`-free region
accepted by `checkRepoSeg`. -/
def matchGitTail (r : List Char) : Option (List Char × List Char) :=
  let g1 := r.takeWhile isNotSlash
  match r.dropWhile isNotSlash with
  | '/' :: b =>
    if g1 = [] ∨ '/' ∈ b then none
    else
      match checkRepoSeg b with
      | some g2 => some (g1, g2)
      | none => none
  | _ => none

/-- Leftmost scan of `url.match(regex)`: try every start position in order;
at each position the regex succeeds iff the literal marker is present there
and `matchGitTail` accepts what follows it. -/
def scanFor (marker : List Char) : List Char → Option (List Char × List Char)
  | [] => none
  | c :: rest =>
    if listStartsWith marker (c :: rest) then
      match matchGitTail ((c :: rest).drop marker.length) with
      | some pr => some pr
      | none => scanFor marker rest
    else scanFor marker rest

def ghName : List Char := ['g', 'i', 't', 'h', 'u', 'b', '.', 'c', 'o', 'm']

def ghSlash : List Char := ghName ++ ['/']

def ghColon : List Char := ghName ++ [':']

/-- Repository information extracted from a URL (source interface `RepoInfo`). -/
structure RepoInfo where
  owner : List Char
  repo : List Char
deriving DecidableEq, Repr

/-- `parseRepoUrl` (lib/github/api): try the `github.com/…` pattern first,
then the `github.com:…` pattern, and return `null` when neither matches. -/
def parseRepoUrl (url : List Char) : Option RepoInfo :=
  match scanFor ghSlash url with
  | some pr => some ⟨pr.1, pr.2⟩
  | none =>
    match scanFor ghColon url with
    | some pr => some ⟨pr.1, pr.2⟩
    | none => none

/-! ### Lemmas about the scanning primitives -/

theorem listStartsWith_self_append (m s : List Char) : listStartsWith m (m ++ s) = true := by
  induction m with
  | nil => simp [listStartsWith]
  | cons c cs ih => simp [listStartsWith, ih]

theorem listStartsWith_exists_append (m l : List Char) (h : listStartsWith m l = true) :
    ∃ t, l = m ++ t := by
  induction m generalizing l with
  | nil => exact ⟨l, rfl⟩
  | cons c cs ih =>
    cases l with
    | nil => simp [listStartsWith] at h
    | cons a l' =>
      simp only [listStartsWith] at h
      by_cases hc : c = a
      · subst hc
        simp only [if_pos rfl] at h
        obtain ⟨t, ht⟩ := ih l' h
        exact ⟨t, by simp [ht]⟩
      · simp [hc] at h

theorem listStartsWith_mono (a b l : List Char) (h : listStartsWith (a ++ b) l = true) :
    listStartsWith a l = true := by
  induction a generalizing l with
  | nil => simp [listStartsWith]
  | cons c cs ih =>
    cases l with
    | nil => simp [listStartsWith] at h
    | cons x l' =>
      simp only [List.cons_append, listStartsWith] at h ⊢
      by_cases hc : c = x
      · simp only [hc, if_pos rfl] at h ⊢
        exact ih l' h
      · simp [hc] at h

theorem scanFor_cons_neg (marker : List Char) (c : Char) (rest : List Char)
    (h : listStartsWith marker (c :: rest) = false) :
    scanFor marker (c :: rest) = scanFor marker rest := by
  simp [scanFor, h]

theorem scanFor_skip (marker head s : List Char) (m0 : Char) (ms : List Char)
    (hm : marker = m0 :: ms) (h : ∀ c ∈ head, ¬(c = m0)) :
    scanFor marker (head ++ s) = scanFor marker s := by
  induction head with
  | nil => simp
  | cons c cs ih =>
    have hmc : ¬(m0 = c) := fun hc => h c (List.mem_cons_self c cs) hc.symm
    have hc : listStartsWith marker (c :: (cs ++ s)) = false := by
      rw [hm]
      simp [listStartsWith, hmc]
    rw [List.cons_append, scanFor_cons_neg _ _ _ hc]
    exact ih (fun x hx => h x (List.mem_cons_of_mem _ hx))

theorem scanFor_marker_hit (marker rest : List Char) (pr : List Char × List Char)
    (m0 : Char) (ms : List Char) (hm : marker = m0 :: ms)
    (h : matchGitTail rest = some pr) :
    scanFor marker (marker ++ rest) = some pr := by
  have hstart : listStartsWith marker (marker ++ rest) = true := listStartsWith_self_append _ _
  have hdrop : (marker ++ rest).drop marker.length = rest := List.drop_left _ _
  conv_lhs => rw [hm, List.cons_append]
  rw [hm] at hstart hdrop
  rw [List.cons_append] at hstart hdrop
  simp only [scanFor, hstart, if_true]
  rw [hdrop, h]

theorem scanFor_none_of (marker s : List Char)
    (h : ∀ i, listStartsWith marker (s.drop i) = true →
      matchGitTail ((s.drop i).drop marker.length) = none) :
    scanFor marker s = none := by
  induction s with
  | nil => simp [scanFor]
  | cons c rest ih =>
    by_cases hst : listStartsWith marker (c :: rest) = true
    · have h0 := h 0 (by simpa using hst)
      simp only [List.drop_zero] at h0
      simp only [scanFor, hst, if_true, h0]
      exact ih (fun i hi => by
        have := h (i + 1) (by simpa [List.drop_succ_cons] using hi)
        simpa [List.drop_succ_cons] using this)
    · rw [scanFor_cons_neg _ _ _ (Bool.not_eq_true _ ▸ hst)]
      exact ih (fun i hi => by
        have := h (i + 1) (by simpa [List.drop_succ_cons] using hi)
        simpa [List.drop_succ_cons] using this)

/-! ### Lemmas about `matchGitTail` and `checkRepoSeg` -/

theorem isNotSlash_of_ne (c : Char) (hc : ¬(c = '/')) : isNotSlash c = true := by
  simp [isNotSlash, hc]

theorem takeWhile_append_slash (o b : List Char) (ho : '/' ∉ o) :
    (o ++ '/' :: b).takeWhile isNotSlash = o := by
  induction o with
  | nil => simp [List.takeWhile, isNotSlash]
  | cons c cs ih =>
    have hc : isNotSlash c = true :=
      isNotSlash_of_ne c (fun h => ho (h ▸ List.mem_cons_self c cs))
    have ih' := ih (fun hm => ho (List.mem_cons_of_mem _ hm))
    simp only [List.cons_append, List.takeWhile, hc]
    simp [ih']

theorem dropWhile_append_slash (o b : List Char) (ho : '/' ∉ o) :
    (o ++ '/' :: b).dropWhile isNotSlash = '/' :: b := by
  induction o with
  | nil => simp [List.dropWhile, isNotSlash]
  | cons c cs ih =>
    have hc : isNotSlash c = true :=
      isNotSlash_of_ne c (fun h => ho (h ▸ List.mem_cons_self c cs))
    have ih' := ih (fun hm => ho (List.mem_cons_of_mem _ hm))
    simp only [List.cons_append, List.dropWhile, hc]
    simp [ih']

theorem dropWhile_no_slash (t : List Char) (h : '/' ∉ t) :
    t.dropWhile isNotSlash = [] := by
  induction t with
  | nil => simp [List.dropWhile]
  | cons c cs ih =>
    have hc : isNotSlash c = true :=
      isNotSlash_of_ne c (fun hcc => h (hcc ▸ List.mem_cons_self c cs))
    have ih' := ih (fun hm => h (List.mem_cons_of_mem _ hm))
    simp only [List.dropWhile, hc]
    simp [ih']

theorem matchGitTail_ok (o b g2 : List Char) (ho : o ≠ []) (ho2 : '/' ∉ o) (hb : '/' ∉ b)
    (hc : checkRepoSeg b = some g2) : matchGitTail (o ++ '/' :: b) = some (o, g2) := by
  simp only [matchGitTail]
  rw [takeWhile_append_slash o b ho2, dropWhile_append_slash o b ho2]
  simp [ho, hb, hc]

theorem matchGitTail_no_slash (t : List Char) (h : '/' ∉ t) : matchGitTail t = none := by
  simp only [matchGitTail]
  rw [dropWhile_no_slash t h]

theorem checkRepoSeg_plain (r : List Char) (hr : r ≠ []) (hr3 : '.' ∉ r) :
    checkRepoSeg r = some r := by
  simp [checkRepoSeg, hr, hr3]

def gitExt : List Char := ['.', 'g', 'i', 't']

theorem checkRepoSeg_git (r : List Char) (hr : r ≠ []) (hr3 : '.' ∉ r) :
    checkRepoSeg (r ++ gitExt) = some r := by
  have hdot : '.' ∈ r ++ gitExt := List.mem_append_right r (by decide)
  have h1 : 1 ≤ r.length := List.length_pos.2 hr
  have h2 : (r ++ gitExt).length = r.length + 4 := by simp [gitExt]
  have hlen : (r ++ gitExt).length - 4 = r.length := by omega
  have hcond : 5 ≤ (r ++ gitExt).length ∧
      (r ++ gitExt).drop ((r ++ gitExt).length - 4) = ['.', 'g', 'i', 't'] ∧
      '.' ∉ (r ++ gitExt).take ((r ++ gitExt).length - 4) := by
    refine ⟨by omega, ?_, ?_⟩
    · rw [hlen]
      exact List.drop_left r gitExt
    · rw [hlen, List.take_left]
      exact hr3
  simp only [checkRepoSeg]
  rw [if_neg (fun hcond' => hcond'.2 hdot), if_pos hcond, hlen, List.take_left]

/-! ### The marker lists decomposed -/

theorem ghSlash_eq : ghSlash = ghName ++ ['/'] := rfl

theorem ghColon_eq : ghColon = ghName ++ [':'] := rfl

theorem scanFor_ghSlash_none (s : List Char) (h : s.count '/' ≤ 1) :
    scanFor ghSlash s = none := by
  apply scanFor_none_of
  intro i hst
  obtain ⟨t, ht⟩ := listStartsWith_exists_append _ _ hst
  have hdrop : (s.drop i).drop ghSlash.length = t := by
    rw [ht]
    exact List.drop_left _ _
  rw [hdrop]
  apply matchGitTail_no_slash
  have h1 : s.count '/' = (s.take i).count '/' + (ghSlash ++ t).count '/' := by
    conv_lhs => rw [← List.take_append_drop i s]
    rw [List.count_append, ht]
  have h2 : (ghSlash ++ t).count '/' = 1 + t.count '/' := by
    rw [List.count_append]
    norm_num [show ghSlash.count '/' = 1 from by decide]
  have : t.count '/' = 0 := by omega
  exact List.count_eq_zero.1 this

/-! ### C7: the three supported URL forms, with explicit heads -/

def httpsHead : List Char := ['h', 't', 't', 'p', 's', ':', '/', '/']

def sshHead : List Char := ['g', 'i', 't', '@']

def httpsForm (o r : List Char) : List Char := httpsHead ++ (ghSlash ++ (o ++ '/' :: r))

def httpsGitForm (o r : List Char) : List Char :=
  httpsHead ++ (ghSlash ++ (o ++ '/' :: (r ++ gitExt)))

def sshForm (o r : List Char) : List Char := sshHead ++ (ghColon ++ (o ++ '/' :: (r ++ gitExt)))

theorem no_slash_append_gitExt (r : List Char) (hr2 : '/' ∉ r) : '/' ∉ r ++ gitExt := by
  intro hmem
  rcases List.mem_append.1 hmem with h | h
  · exact hr2 h
  · revert h
    decide

/-- Claim C7 (counterexample): `parseRepoUrl` does not return null for every
non-GitHub host. The regex `/github\.com\/([^\/]+)\/([^\/\.]+)(\.git)?$/` is
not anchored at the start of the string, so the URL
`https://notgithub.com/a/b` of the host `notgithub.com` — which the claim
says must map to null — parses successfully, because `github.com/a/b`
occurs as a terminal substring. -/
theorem parseRepoUrl_nonGitHub_host_cex :
    parseRepoUrl
      ['h', 't', 't', 'p', 's', ':', '/', '/', 'n', 'o', 't', 'g', 'i', 't', 'h', 'u', 'b',
        '.', 'c', 'o', 'm', '/', 'a', '/', 'b'] = some ⟨['a'], ['b']⟩ ∧
    parseRepoUrl
      ['h', 't', 't', 'p', 's', ':', '/', '/', 'n', 'o', 't', 'g', 'i', 't', 'h', 'u', 'b',
        '.', 'c', 'o', 'm', '/', 'a', '/', 'b'] ≠ none := by
  constructor
  · decide
  · decide

/-- Claim C7 (amended): `parseRepoUrl` returns the correct owner/repo pair
for each of the three supported URL forms (`https://github.com/{owner}/{repo}`,
the same with a trailing `.git`, and `git@github.com:{owner}/{repo}.git`,
where the owner is a nonempty slash-free segment and the repo is a nonempty
slash-free and dot-free segment), and it returns null — never throwing —
for every string in which the substring `github.com` does not occur;
however (this is the amendment forced by the counterexample) the host
check is an unanchored substring match, so it does not return null for
every non-GitHub-host URL: any string ending in `github.com/{owner}/{repo}`
or `github.com:{owner}/{repo}` also parses. -/
theorem parseRepoUrl_supported_forms (o r u : List Char)
    (ho : o ≠ []) (ho2 : '/' ∉ o) (hr : r ≠ []) (hr2 : '/' ∉ r) (hr3 : '.' ∉ r)
    (hu : ∀ i < u.length, listStartsWith ghName (u.drop i) = false) :
    parseRepoUrl (httpsForm o r) = some ⟨o, r⟩ ∧
    parseRepoUrl (httpsGitForm o r) = some ⟨o, r⟩ ∧
    parseRepoUrl (sshForm o r) = some ⟨o, r⟩ ∧
    parseRepoUrl u = none := by
  have hbg : '/' ∉ r ++ gitExt := no_slash_append_gitExt r hr2
  refine ⟨?_, ?_, ?_, ?_⟩
  · have hmt : matchGitTail (o ++ '/' :: r) = some (o, r) :=
      matchGitTail_ok o r r ho ho2 hr2 (checkRepoSeg_plain r hr hr3)
    have hscan : scanFor ghSlash (httpsForm o r) = some (o, r) := by
      unfold httpsForm
      rw [scanFor_skip ghSlash httpsHead _ 'g' _ rfl (by decide)]
      exact scanFor_marker_hit ghSlash _ _ 'g' _ rfl hmt
    simp [parseRepoUrl, hscan]
  · have hmt : matchGitTail (o ++ '/' :: (r ++ gitExt)) = some (o, r) :=
      matchGitTail_ok o (r ++ gitExt) r ho ho2 hbg (checkRepoSeg_git r hr hr3)
    have hscan : scanFor ghSlash (httpsGitForm o r) = some (o, r) := by
      unfold httpsGitForm
      rw [scanFor_skip ghSlash httpsHead _ 'g' _ rfl (by decide)]
      exact scanFor_marker_hit ghSlash _ _ 'g' _ rfl hmt
    simp [parseRepoUrl, hscan]
  · have hcount : (sshForm o r).count '/' = 1 := by
      have c1 : sshHead.count '/' = 0 := by decide
      have c2 : ghColon.count '/' = 0 := by decide
      have c3 : gitExt.count '/' = 0 := by decide
      have c4 : o.count '/' = 0 := List.count_eq_zero.2 ho2
      have c5 : r.count '/' = 0 := List.count_eq_zero.2 hr2
      simp [sshForm, List.count_append, List.count_cons_self, c1, c2, c3, c4, c5]
    have h1 : scanFor ghSlash (sshForm o r) = none :=
      scanFor_ghSlash_none _ (le_of_eq hcount)
    have hmt : matchGitTail (o ++ '/' :: (r ++ gitExt)) = some (o, r) :=
      matchGitTail_ok o (r ++ gitExt) r ho ho2 hbg (checkRepoSeg_git r hr hr3)
    have h2 : scanFor ghColon (sshForm o r) = some (o, r) := by
      rw [show sshForm o r =
        'g' :: 'i' :: 't' :: '@' :: (ghColon ++ (o ++ '/' :: (r ++ gitExt))) from rfl]
      rw [scanFor_cons_neg _ _ _ (by rfl), scanFor_cons_neg _ _ _ (by rfl),
        scanFor_cons_neg _ _ _ (by rfl), scanFor_cons_neg _ _ _ (by rfl)]
      exact scanFor_marker_hit ghColon _ _ 'g' _ rfl hmt
    simp [parseRepoUrl, h1, h2]
  · have hfull : ∀ i, listStartsWith ghName (u.drop i) = false := by
      intro i
      by_cases hi : i < u.length
      · exact hu i hi
      · rw [List.drop_eq_nil_of_le (le_of_not_lt hi)]
        rfl
    have hg1 : scanFor ghSlash u = none := by
      apply scanFor_none_of
      intro i hst
      have := listStartsWith_mono ghName ['/'] _ (ghSlash_eq ▸ hst)
      rw [hfull i] at this
      cases this
    have hg2 : scanFor ghColon u = none := by
      apply scanFor_none_of
      intro i hst
      have := listStartsWith_mono ghName [':'] _ (ghColon_eq ▸ hst)
      rw [hfull i] at this
      cases this
    simp [parseRepoUrl, hg1, hg2]

/-- Witness for `parseRepoUrl_supported_forms`: owner `acme`, repo `widgets`,
and the non-URL `not a url`. -/
theorem parseRepoUrl_supported_forms_witness :
    parseRepoUrl (httpsForm ['a', 'c', 'm', 'e'] ['w', 'i', 'd', 'g', 'e', 't', 's']) =
      some ⟨['a', 'c', 'm', 'e'], ['w', 'i', 'd', 'g', 'e', 't', 's']⟩ ∧
    parseRepoUrl (sshForm ['a', 'c', 'm', 'e'] ['w', 'i', 'd', 'g', 'e', 't', 's']) =
      some ⟨['a', 'c', 'm', 'e'], ['w', 'i', 'd', 'g', 'e', 't', 's']⟩ ∧
    parseRepoUrl ['n', 'o', 't', ' ', 'a', ' ', 'u', 'r', 'l'] = none := by
  have h := parseRepoUrl_supported_forms ['a', 'c', 'm', 'e'] ['w', 'i', 'd', 'g', 'e', 't', 's']
    ['n', 'o', 't', ' ', 'a', ' ', 'u', 'r', 'l'] (by decide) (by decide) (by decide)
    (by decide) (by decide) (by decide)
  exact ⟨h.1, h.2.2.1, h.2.2.2⟩

/-! ## `shouldIgnorePath` and `getRepoTree` (part of the api module)

`DEFAULT_IGNORE_PATTERNS` (lines 54–70), `shouldIgnorePath` (lines
129–164) and the filtering step of `getRepoTree` (lines 353–364).
`shouldIgnorePath` always prepends the default patterns to the caller's
patterns; for each pattern it checks, in order: exact path equality,
`path.startsWith(pattern + "/")`, `path.includes("/" + pattern + "/")`,
and — only for patterns containing `*` — an unanchored test of the regex
obtained by escaping `.` and replacing `*` with `.*`. -/

def DEFAULT_IGNORE_PATTERNS : List (List Char) :=
  [['.', 'g', 'i', 't'],
   ['n', 'o', 'd', 'e', '_', 'm', 'o', 'd', 'u', 'l', 'e', 's'],
   ['.', 'D', 'S', '_', 'S', 't', 'o', 'r', 'e'],
   ['d', 'i', 's', 't'],
   ['b', 'u', 'i', 'l', 'd'],
   ['.', 'e', 'n', 'v'],
   ['.', 'e', 'n', 'v', '.', 'l', 'o', 'c', 'a', 'l'],
   ['.', 'e', 'n', 'v', '.', 'd', 'e', 'v', 'e', 'l', 'o', 'p', 'm', 'e', 'n', 't', '.',
    'l', 'o', 'c', 'a', 'l'],
   ['.', 'e', 'n', 'v', '.', 't', 'e', 's', 't', '.', 'l', 'o', 'c', 'a', 'l'],
   ['.', 'e', 'n', 'v', '.', 'p', 'r', 'o', 'd', 'u', 'c', 't', 'i', 'o', 'n', '.',
    'l', 'o', 'c', 'a', 'l'],
   ['n', 'p', 'm', '-', 'd', 'e', 'b', 'u', 'g', '.', 'l', 'o', 'g'],
   ['y', 'a', 'r', 'n', '-', 'd', 'e', 'b', 'u', 'g', '.', 'l', 'o', 'g'],
   ['y', 'a', 'r', 'n', '-', 'e', 'r', 'r', 'o', 'r', '.', 'l', 'o', 'g'],
   ['p', 'a', 'c', 'k', 'a', 'g', 'e', '-', 'l', 'o', 'c', 'k', '.', 'j', 's', 'o', 'n'],
   ['c', 'o', 'v', 'e', 'r', 'a', 'g', 'e']]

/-- Unanchored matcher for the regex built in the `*`-wildcard branch of
`shouldIgnorePath`: after escaping, the pattern is a sequence of literal
characters in which `*` matches any (possibly empty) character sequence.
`globMatchHere` matches the pattern against a prefix of `s` (the end of
the string is unconstrained because `test` is a substring search). -/
def globMatchHere : List Char → List Char → Bool
  | [], _ => true
  | '*' :: ps, s =>
    globMatchHere ps s ||
      (match s with
       | [] => false
       | _ :: s2 => globMatchHere ('*' :: ps) s2)
  | p :: ps, [] => false
  | p :: ps, c :: s2 => if p = c then globMatchHere ps s2 else false
termination_by p s => (s.length, p.length)

/-- `regex.test(path)` for the wildcard regex: try every start position. -/
def globTest (pat : List Char) : List Char → Bool
  | [] => globMatchHere pat []
  | c :: rest => globMatchHere pat (c :: rest) || globTest pat rest

/-- `shouldIgnorePath` (api module, lines 129–164). -/
def shouldIgnorePath (path : List Char) (ignorePatterns : List (List Char)) : Bool :=
  (DEFAULT_IGNORE_PATTERNS ++ ignorePatterns).any fun pat =>
    path == pat || listStartsWith (pat ++ ['/']) path ||
      containsSub ('/' :: (pat ++ ['/'])) path ||
      (if '*' ∈ pat then globTest pat path else false)

/-- A raw provider tree entry (source interface `TreeItem`; the fields not
used by the modelled operations are elided). -/
structure TreeItem where
  path : List Char
  type : List Char
deriving DecidableEq, Repr

/-- The filtering step of `getRepoTree` (api module, lines 353–364):
given the flat entry list of the provider's recursive tree response,
return the entries that `shouldIgnorePath` does not reject. The
surrounding network fetch is I/O and is not part of the filter. -/
def getRepoTree (treeData : List TreeItem) (ignorePatterns : List (List Char)) :
    List TreeItem :=
  treeData.filter fun item => !(shouldIgnorePath item.path ignorePatterns)

/-- Claim C10: `getRepoTree` always applies the built-in default ignore
list in addition to the caller's patterns: for every call — whatever the
`ignorePatterns` argument, including `[]` — every tree entry whose path
equals one of the default names, starts with one as its first segment, or
contains one as an intermediate directory segment, is absent from the
returned entry list. -/
theorem getRepoTree_default_ignore (treeData : List TreeItem)
    (ignorePatterns : List (List Char)) (item : TreeItem) (d : List Char)
    (hd : d ∈ DEFAULT_IGNORE_PATTERNS)
    (hmatch : item.path = d ∨ listStartsWith (d ++ ['/']) item.path = true ∨
      containsSub ('/' :: (d ++ ['/'])) item.path = true) :
    item ∉ getRepoTree treeData ignorePatterns := by
  intro hmem
  have hpred := (List.mem_filter.1 hmem).2
  have hign : shouldIgnorePath item.path ignorePatterns = true := by
    apply List.any_eq_true.2
    refine ⟨d, List.mem_append_left _ hd, ?_⟩
    rcases hmatch with h | h | h
    · simp [h]
    · simp [h]
    · simp [h]
  rw [hign] at hpred
  simp at hpred

/-- Witness for `getRepoTree_default_ignore`: a tree containing
`node_modules/x` with an empty caller pattern list. -/
theorem getRepoTree_default_ignore_witness :
    (⟨['n', 'o', 'd', 'e', '_', 'm', 'o', 'd', 'u', 'l', 'e', 's', '/', 'x'],
        ['b', 'l', 'o', 'b']⟩ : TreeItem) ∉
      getRepoTree
        [⟨['n', 'o', 'd', 'e', '_', 'm', 'o', 'd', 'u', 'l', 'e', 's', '/', 'x'],
          ['b', 'l', 'o', 'b']⟩] [] :=
  getRepoTree_default_ignore _ []
    ⟨['n', 'o', 'd', 'e', '_', 'm', 'o', 'd', 'u', 'l', 'e', 's', '/', 'x'],
      ['b', 'l', 'o', 'b']⟩
    ['n', 'o', 'd', 'e', '_', 'm', 'o', 'd', 'u', 'l', 'e', 's']
    (by decide) (Or.inr (Or.inl (by decide)))

/-! ## The API cache (api module, lines 72–191)

`apiCache` is a string-keyed object holding `{ data, timestamp }` entries;
it is modelled as an association list whose entries are
`(key, (data, timestamp))`.  `MAX_CACHE_SIZE` and `CACHE_EXPIRATION` are
the source constants.  `addToCache` (lines 172–191) checks the entry
count, finds with a `reduce` (initial value `cacheEntries[0]`, strict
`<` comparison, so the first minimal entry wins) the entry with the
smallest timestamp, deletes it, and then writes the new entry.  The model
is generic in the key and data types; the source instantiates them with
strings. -/

def MAX_CACHE_SIZE : Nat := 500

def CACHE_EXPIRATION : Nat := 24 * 60 * 60 * 1000

/-- The `reduce` of `addToCache`: fold over all entries, keeping the entry
with the strictly smaller timestamp. -/
def findOldest {κ α : Type} (cache : List (κ × α × Nat)) (init : κ × α × Nat) :
    κ × α × Nat :=
  cache.foldl (fun oldest cur => if cur.2.2 < oldest.2.2 then cur else oldest) init

/-- `addToCache(key, data)` (api module, lines 172–191). -/
def addToCache {κ α : Type} [DecidableEq κ] (now : Nat) (key : κ) (data : α)
    (cache : List (κ × α × Nat)) : List (κ × α × Nat) :=
  let cache' :=
    if MAX_CACHE_SIZE ≤ cache.length then
      match cache with
      | [] => cache
      | e :: _ => delKey cache (findOldest cache e).1
    else cache
  setKey cache' key (data, now)

theorem findOldest_le {κ α : Type} (cache : List (κ × α × Nat)) (init : κ × α × Nat) :
    (findOldest cache init).2.2 ≤ init.2.2 ∧
      ∀ e ∈ cache, (findOldest cache init).2.2 ≤ e.2.2 := by
  induction cache generalizing init with
  | nil => simp [findOldest]
  | cons c cs ih =>
    simp only [findOldest, List.foldl_cons]
    by_cases hc : c.2.2 < init.2.2
    · have ihc := ih c
      rw [if_pos hc]
      refine ⟨le_trans ihc.1 (le_of_lt hc), ?_⟩
      intro e he
      rcases List.mem_cons.1 he with rfl | he
      · exact ihc.1
      · exact ihc.2 e he
    · have ihc := ih init
      rw [if_neg hc]
      refine ⟨ihc.1, ?_⟩
      intro e he
      rcases List.mem_cons.1 he with rfl | he
      · exact le_trans ihc.1 (le_of_not_lt hc)
      · exact ihc.2 e he

theorem findOldest_cons {κ α : Type} (c : κ × α × Nat) (cs : List (κ × α × Nat))
    (init : κ × α × Nat) :
    findOldest (c :: cs) init =
      if c.2.2 < init.2.2 then findOldest cs c else findOldest cs init := by
  simp only [findOldest, List.foldl_cons]
  by_cases hc : c.2.2 < init.2.2 <;> simp [hc]

theorem findOldest_mem {κ α : Type} (cache : List (κ × α × Nat)) (init : κ × α × Nat) :
    findOldest cache init = init ∨ findOldest cache init ∈ cache := by
  induction cache generalizing init with
  | nil => simp [findOldest]
  | cons c cs ih =>
    rw [findOldest_cons]
    by_cases hc : c.2.2 < init.2.2
    · rw [if_pos hc]
      rcases ih c with h | h
      · refine Or.inr ?_
        rw [h]
        exact List.mem_cons_self c cs
      · exact Or.inr (List.mem_cons_of_mem _ h)
    · rw [if_neg hc]
      rcases ih init with h | h
      · exact Or.inl h
      · exact Or.inr (List.mem_cons_of_mem _ h)

theorem delKey_length_of_mem {κ β : Type} [DecidableEq κ] (m : List (κ × β)) (p : κ × β)
    (hp : p ∈ m) : (delKey m p.1).length + 1 = m.length := by
  induction m with
  | nil => simp at hp
  | cons q qs ih =>
    by_cases hq : q.1 = p.1
    · simp [delKey, hq]
    · have hp' : p ∈ qs := by
        rcases List.mem_cons.1 hp with rfl | h
        · exact absurd rfl hq
        · exact h
      simp only [delKey, hq, if_false, List.length_cons]
      rw [← ih hp']

/-- Claim C5: whenever `addToCache` runs against a cache already holding at
least `MAX_CACHE_SIZE = 500` entries (so an insertion would push the count
past the bound), exactly one entry is evicted before the insert, namely an
entry whose `storedAt` timestamp is minimal among all entries — an entry
with a strictly newer `storedAt` is never evicted in its place — and the
new value is then written over the remainder. -/
theorem addToCache_evicts_oldest {κ α : Type} [DecidableEq κ] (now : Nat) (key : κ)
    (data : α) (cache : List (κ × α × Nat))
    (hnd : (cache.map Prod.fst).Nodup) (hlen : MAX_CACHE_SIZE ≤ cache.length) :
    ∃ old, old ∈ cache ∧ (∀ e ∈ cache, old.2.2 ≤ e.2.2) ∧
      addToCache now key data cache = setKey (delKey cache old.1) key (data, now) ∧
      old ∉ delKey cache old.1 ∧
      (∀ e ∈ cache, e.1 ≠ old.1 → e ∈ delKey cache old.1) ∧
      (delKey cache old.1).length + 1 = cache.length := by
  cases cache with
  | nil => simp [MAX_CACHE_SIZE] at hlen
  | cons c cs =>
    have hcc : c ∈ c :: cs := List.mem_cons_self c cs
    have hold : findOldest (c :: cs) c ∈ c :: cs := by
      rcases findOldest_mem (c :: cs) c with h | h
      · rw [h]
        exact hcc
      · exact h
    refine ⟨findOldest (c :: cs) c, hold, (findOldest_le (c :: cs) c).2, ?_, ?_, ?_, ?_⟩
    · simp only [addToCache]
      rw [if_pos hlen]
    · intro hmem
      exact keyNotMem_delKey _ _ hnd _ hmem rfl
    · intro e he hne
      exact mem_delKey_of_ne _ _ e he hne
    · exact delKey_length_of_mem _ _ hold

/-- Witness for `addToCache_evicts_oldest`: a full cache of 500 entries with
keys `0..499` and timestamps equal to the keys. -/
theorem addToCache_evicts_oldest_witness :
    ((((List.range 500).map fun i => ((i : Nat), ((), i))).map Prod.fst).Nodup ∧
      MAX_CACHE_SIZE ≤ ((List.range 500).map fun i => ((i : Nat), ((), i))).length) ∧
    ∃ old, old ∈ ((List.range 500).map fun i => ((i : Nat), ((), i))) ∧
      (∀ e ∈ ((List.range 500).map fun i => ((i : Nat), ((), i))), old.2.2 ≤ e.2.2) ∧
      addToCache 1000 777 () ((List.range 500).map fun i => ((i : Nat), ((), i))) =
        setKey (delKey ((List.range 500).map fun i => ((i : Nat), ((), i))) old.1)
          777 ((), 1000) ∧
      old ∉ delKey ((List.range 500).map fun i => ((i : Nat), ((), i))) old.1 ∧
      (∀ e ∈ ((List.range 500).map fun i => ((i : Nat), ((), i))), e.1 ≠ old.1 →
        e ∈ delKey ((List.range 500).map fun i => ((i : Nat), ((), i))) old.1) ∧
      (delKey ((List.range 500).map fun i => ((i : Nat), ((), i))) old.1).length + 1 =
        ((List.range 500).map fun i => ((i : Nat), ((), i))).length := by
  have h1 : ((((List.range 500).map fun i => ((i : Nat), ((), i))).map Prod.fst)).Nodup := by
    have : (((List.range 500).map fun i => ((i : Nat), ((), i))).map Prod.fst) =
        List.range 500 := by
      simp [List.map_map, Function.comp_def]
    rw [this]
    exact List.nodup_range 500
  have h2 : MAX_CACHE_SIZE ≤ ((List.range 500).map fun i => ((i : Nat), ((), i))).length := by
    simp [MAX_CACHE_SIZE]
  exact ⟨⟨h1, h2⟩, addToCache_evicts_oldest 1000 777 () _ h1 h2⟩

/-! ## In-flight request coalescing (api module, lines 76–298, 374–440, 481–487)

`fetchGitHubApi` (and `getFileContent`, which repeats the same pattern
with the composite `owner/repo/branch/path` key) keeps a module-level
`pendingRequests : Map<string, Promise>` next to `apiCache`.  A call
first consults the cache; on a miss it returns the already-registered
promise when one exists for the key, and otherwise creates a promise,
registers it under the key before any network activity happens, and — in
a `finally` — deletes the key when the promise settles.  `clearApiCache`
empties both structures and leaves any network call already issued
running (it is only untracked).

The embedding is an event-driven state machine over the single-threaded
event loop: a `fetch` event is a caller invoking `fetchGitHubApi(url)` up
to its synchronous completion (cache hit, join, or registration of a new
request), and a `settle` event is the resolution or rejection of a
registered request's promise.  `inFlight` records the identities of the
created, not yet settled, underlying network requests; a fresh `nextId`
names each one (standing for the identity of the JS promise object). -/

structure ApiState where
  cache : List (String × String × Nat)
  pending : List (String × Nat)
  inFlight : List (Nat × String)
  nextId : Nat
deriving Repr

inductive FetchOutcome where
  | cached (data : String)
  | joined (id : Nat)
  | started (id : Nat)
deriving DecidableEq, Repr

/-- The cache-miss path of `fetchGitHubApi` (lines 206–297): reuse the
pending promise when present, else create, register, and start a request. -/
def fetchStepMiss (url : String) (s : ApiState) : FetchOutcome × ApiState :=
  match alookup url s.pending with
  | some id => (FetchOutcome.joined id, s)
  | none =>
    (FetchOutcome.started s.nextId,
      { s with
          pending := (url, s.nextId) :: s.pending,
          inFlight := (s.nextId, url) :: s.inFlight,
          nextId := s.nextId + 1 })

/-- One `fetchGitHubApi(url)` call (lines 199–298): cache check (an entry
younger than `CACHE_EXPIRATION` is served; `Date.now() - timestamp` is
clamped at 0 by `Nat` subtraction, which matches the JS comparison since a
negative difference is also below the expiration), then the miss path. -/
def fetchStep (now : Nat) (url : String) (s : ApiState) : FetchOutcome × ApiState :=
  match alookup url s.cache with
  | some e =>
    if now - e.2 < CACHE_EXPIRATION then (FetchOutcome.cached e.1, s)
    else fetchStepMiss url s
  | none => fetchStepMiss url s

/-- `true` when the cache check of `fetchStep` falls through to the miss path. -/
def cacheMiss (now : Nat) (url : String) (s : ApiState) : Bool :=
  match alookup url s.cache with
  | some e => if now - e.2 < CACHE_EXPIRATION then false else true
  | none => true

/-- Settlement of the request `id` registered under `url`: on success the
response is written through the cache (`addToCache`), and in every case the
`finally` deletes the pending entry for the key; the network request is no
longer in flight. -/
def settleStep (now : Nat) (url : String) (id : Nat) (result : Except String String)
    (s : ApiState) : ApiState :=
  let cache' :=
    match result with
    | Except.ok data => addToCache now url data s.cache
    | Except.error _ => s.cache
  { s with
      cache := cache',
      pending := delKey s.pending url,
      inFlight := delKey s.inFlight id }

/-- `clearApiCache` (lines 481–487): delete every cache key and clear the
pending-request map; requests already in flight are not aborted. -/
def clearApiCache (s : ApiState) : ApiState :=
  { s with cache := [], pending := [] }

inductive ApiEvent where
  | fetch (now : Nat) (url : String)
  | settle (now : Nat) (url : String) (id : Nat) (result : Except String String)

/-- Event-loop step.  A `settle` event only applies to a request that is
actually in flight (the event names the request); anything else is a no-op. -/
def stepEvent (s : ApiState) : ApiEvent → ApiState
  | ApiEvent.fetch now url => (fetchStep now url s).2
  | ApiEvent.settle now url id r =>
    if (id, url) ∈ s.inFlight then settleStep now url id r s else s

def initialApiState : ApiState := ⟨[], [], [], 0⟩

def runEvents (es : List ApiEvent) : ApiState := es.foldl stepEvent initialApiState

/-- The coalescing invariant of the api module state. -/
def ApiInv (s : ApiState) : Prop :=
  (s.pending.map Prod.fst).Nodup ∧
  (s.inFlight.map Prod.fst).Nodup ∧
  (∀ p ∈ s.inFlight, alookup p.2 s.pending = some p.1) ∧
  (∀ q ∈ s.pending, (q.2, q.1) ∈ s.inFlight) ∧
  (∀ p ∈ s.inFlight, p.1 < s.nextId) ∧
  (∀ q ∈ s.pending, q.2 < s.nextId)

theorem eq_of_mem_nodupKeys {κ β : Type} (l : List (κ × β))
    (hnd : (l.map Prod.fst).Nodup) (p q : κ × β) (hp : p ∈ l) (hq : q ∈ l)
    (h : p.1 = q.1) : p = q := by
  induction l with
  | nil => simp at hp
  | cons a l' ih =>
    simp only [List.map_cons, List.nodup_cons] at hnd
    rcases List.mem_cons.1 hp with rfl | hp' <;> rcases List.mem_cons.1 hq with rfl | hq'
    · rfl
    · exact absurd (h ▸ List.mem_map_of_mem Prod.fst hq') hnd.1
    · exact absurd (h ▸ List.mem_map_of_mem Prod.fst hp') (by
        intro hmem
        exact hnd.1 hmem)
    · exact ih hnd.2 hp' hq'

theorem apiInv_initial : ApiInv initialApiState := by
  simp [ApiInv, initialApiState]

theorem apiInv_fetchStepMiss (url : String) (s : ApiState) (h : ApiInv s) :
    ApiInv (fetchStepMiss url s).2 := by
  obtain ⟨h1, h2, h3, h4, h5, h6⟩ := h
  cases hp : alookup url s.pending with
  | some id => simpa [fetchStepMiss, hp] using ⟨h1, h2, h3, h4, h5, h6⟩
  | none =>
    simp only [fetchStepMiss, hp]
    refine ⟨?_, ?_, ?_, ?_, ?_, ?_⟩
    · simp only [List.map_cons, List.nodup_cons]
      exact ⟨(alookup_eq_none_iff _ _).1 hp, h1⟩
    · simp only [List.map_cons, List.nodup_cons]
      refine ⟨?_, h2⟩
      intro hmem
      obtain ⟨p, hpmem, hp1⟩ := List.mem_map.1 hmem
      exact absurd (hp1 ▸ h5 p hpmem) (lt_irrefl s.nextId)
    · intro p hpmem
      rcases List.mem_cons.1 hpmem with rfl | hpmem'
      · simp [alookup]
      · have hne : ¬(url = p.2) := by
          intro heq
          have hlook := h3 p hpmem'
          rw [← heq] at hlook
          rw [hlook] at hp
          cases hp
        simp only [alookup, hne, if_false]
        exact h3 p hpmem'
    · intro q hqmem
      rcases List.mem_cons.1 hqmem with rfl | hqmem'
      · exact List.mem_cons_self _ _
      · exact List.mem_cons_of_mem _ (h4 q hqmem')
    · intro p hpmem
      rcases List.mem_cons.1 hpmem with rfl | hpmem'
      · exact Nat.lt_succ_self _
      · exact Nat.lt_succ_of_lt (h5 p hpmem')
    · intro q hqmem
      rcases List.mem_cons.1 hqmem with rfl | hqmem'
      · exact Nat.lt_succ_self _
      · exact Nat.lt_succ_of_lt (h6 q hqmem')

theorem apiInv_fetchStep (now : Nat) (url : String) (s : ApiState) (h : ApiInv s) :
    ApiInv (fetchStep now url s).2 := by
  simp only [fetchStep]
  cases hcache : alookup url s.cache with
  | some e =>
    by_cases ht : now - e.2 < CACHE_EXPIRATION
    · simpa [ht] using h
    · simpa [ht] using apiInv_fetchStepMiss url s h
  | none => exact apiInv_fetchStepMiss url s h

theorem apiInv_settleStep (now : Nat) (url : String) (id : Nat)
    (r : Except String String) (s : ApiState) (h : ApiInv s)
    (hin : (id, url) ∈ s.inFlight) : ApiInv (settleStep now url id r s) := by
  obtain ⟨h1, h2, h3, h4, h5, h6⟩ := h
  refine ⟨?_, ?_, ?_, ?_, ?_, ?_⟩
  · exact ((delKey_sublist s.pending url).map Prod.fst).nodup h1
  · exact ((delKey_sublist s.inFlight id).map Prod.fst).nodup h2
  · intro p hpmem
    have hpold : p ∈ s.inFlight := mem_of_mem_delKey _ _ _ hpmem
    have hpne : p.1 ≠ id := keyNotMem_delKey _ _ h2 _ hpmem
    have hne : p.2 ≠ url := by
      intro heq
      have hlook := h3 p hpold
      rw [heq] at hlook
      have hidlook : alookup url s.pending = some id := h3 (id, url) hin
      rw [hidlook] at hlook
      injection hlook with h'
      exact hpne h'.symm
    rw [show (settleStep now url id r s).pending = delKey s.pending url from rfl]
    rw [alookup_delKey_ne _ _ _ hne]
    exact h3 p hpold
  · intro q hqmem
    have hqold : q ∈ s.pending := mem_of_mem_delKey _ _ _ hqmem
    have hqne : q.1 ≠ url := keyNotMem_delKey _ _ h1 _ hqmem
    have hne : q.2 ≠ id := by
      intro heq
      have heqpair := eq_of_mem_nodupKeys s.inFlight h2 (q.2, q.1) (id, url)
        (h4 q hqold) hin (by simpa using heq)
      have hq1 : q.1 = url := congrArg Prod.snd heqpair
      exact hqne hq1
    exact mem_delKey_of_ne _ _ _ (h4 q hqold) hne
  · intro p hpmem
    exact h5 p (mem_of_mem_delKey _ _ _ hpmem)
  · intro q hqmem
    exact h6 q (mem_of_mem_delKey _ _ _ hqmem)

theorem apiInv_stepEvent (s : ApiState) (e : ApiEvent) (h : ApiInv s) :
    ApiInv (stepEvent s e) := by
  cases e with
  | fetch now url => exact apiInv_fetchStep now url s h
  | settle now url id r =>
    simp only [stepEvent]
    by_cases hin : (id, url) ∈ s.inFlight
    · rw [if_pos hin]
      exact apiInv_settleStep now url id r s h hin
    · rw [if_neg hin]
      exact h

theorem apiInv_run (es : List ApiEvent) : ApiInv (runEvents es) := by
  suffices h : ∀ s, ApiInv s → ApiInv (es.foldl stepEvent s) from
    h initialApiState apiInv_initial
  induction es with
  | nil => exact fun s hs => hs
  | cons e es ih => exact fun s hs => ih _ (apiInv_stepEvent s e hs)

theorem fetchStep_join (now : Nat) (url : String) (s : ApiState) (id : Nat)
    (hmiss : cacheMiss now url s = true) (hpend : alookup url s.pending = some id) :
    fetchStep now url s = (FetchOutcome.joined id, s) := by
  simp only [fetchStep]
  cases hcache : alookup url s.cache with
  | some e =>
    simp only [cacheMiss, hcache] at hmiss
    by_cases ht : now - e.2 < CACHE_EXPIRATION
    · simp [ht] at hmiss
    · simp only [ht, if_false, fetchStepMiss, hpend]
  | none => simp only [fetchStepMiss, hpend]

def kUrl : String := "https://api.github.com/repos/acme/widgets"

/-- Claim C1: request coalescing.  In every reachable state of the api
module (any event sequence from the initial state):
(a) for every key there is at most one underlying network request in
flight; (b) a call for a key whose cache lookup misses while a request for
that key is outstanding returns exactly the registered in-flight promise
and leaves the state unchanged — no new network call is made — and that
promise is one of the in-flight requests, so every caller holding it
observes the identical settled value or error of that single request; and
(c) when the request settles (successfully or not), the pending-request
entry for its key is removed and the request is no longer in flight. -/
theorem fetchGitHubApi_request_coalescing (es : List ApiEvent) (now : Nat) (url : String)
    (id : Nat) (r : Except String String)
    (hmiss : cacheMiss now url (runEvents es) = true)
    (hpend : alookup url (runEvents es).pending = some id) :
    (∀ id1 id2 u, (id1, u) ∈ (runEvents es).inFlight → (id2, u) ∈ (runEvents es).inFlight →
      id1 = id2) ∧
    fetchStep now url (runEvents es) = (FetchOutcome.joined id, runEvents es) ∧
    (id, url) ∈ (runEvents es).inFlight ∧
    alookup url (stepEvent (runEvents es) (ApiEvent.settle now url id r)).pending = none ∧
    (∀ p ∈ (stepEvent (runEvents es) (ApiEvent.settle now url id r)).inFlight, p.1 ≠ id) := by
  obtain ⟨h1, h2, h3, h4, h5, h6⟩ := apiInv_run es
  have hmem : (id, url) ∈ (runEvents es).inFlight := h4 (url, id) (alookup_some_mem _ _ _ hpend)
  have hsettle : stepEvent (runEvents es) (ApiEvent.settle now url id r) =
      settleStep now url id r (runEvents es) := by
    simp only [stepEvent]
    rw [if_pos hmem]
  refine ⟨?_, fetchStep_join now url (runEvents es) id hmiss hpend, hmem, ?_, ?_⟩
  · intro id1 id2 u hm1 hm2
    have e1 : alookup u (runEvents es).pending = some id1 := h3 (id1, u) hm1
    have e2 : alookup u (runEvents es).pending = some id2 := h3 (id2, u) hm2
    rw [e1] at e2
    injection e2
  · rw [hsettle]
    exact alookup_delKey_self _ _ h1
  · intro p hp
    rw [hsettle] at hp
    exact keyNotMem_delKey _ _ h2 _ hp

/-- Witness for `fetchGitHubApi_request_coalescing`: one fetch of `kUrl`
at time 5 registers request 0; a second call at time 6 joins it. -/
theorem fetchGitHubApi_request_coalescing_witness :
    (cacheMiss 6 kUrl (runEvents [ApiEvent.fetch 5 kUrl]) = true ∧
      alookup kUrl (runEvents [ApiEvent.fetch 5 kUrl]).pending = some 0) ∧
    fetchStep 6 kUrl (runEvents [ApiEvent.fetch 5 kUrl]) =
      (FetchOutcome.joined 0, runEvents [ApiEvent.fetch 5 kUrl]) ∧
    (0, kUrl) ∈ (runEvents [ApiEvent.fetch 5 kUrl]).inFlight := by
  have h := fetchGitHubApi_request_coalescing [ApiEvent.fetch 5 kUrl] 6 kUrl 0
    (Except.error kUrl) (by decide) (by decide)
  exact ⟨⟨by decide, by decide⟩, h.2.1, h.2.2.1⟩

/-- Claim C6: `clearCache` postcondition.  `clearCache` in the service
delegates to `clearApiCache` (the toast is UI-only); after it runs, the
cache is empty, the pending-request coalescing state is forgotten, the
in-flight network requests are untouched (not aborted, only untracked),
and a subsequent fetch of any key at any time issues a fresh network call
(outcome `started`, registering a new in-flight request) instead of
returning a cached value or joining a stale in-flight promise. -/
theorem clearCache_forgets_state (s : ApiState) (now : Nat) (url : String) :
    (clearApiCache s).cache = [] ∧
    (clearApiCache s).pending = [] ∧
    (clearApiCache s).inFlight = s.inFlight ∧
    (fetchStep now url (clearApiCache s)).1 = FetchOutcome.started s.nextId ∧
    (fetchStep now url (clearApiCache s)).2.inFlight = (s.nextId, url) :: s.inFlight := by
  refine ⟨rfl, rfl, rfl, ?_, ?_⟩ <;>
    simp [clearApiCache, fetchStep, fetchStepMiss, alookup]

/-! ## `RequestQueue` (services/GitHubService, lines 32–74)

`add(task)` pushes a wrapper onto `queue` and calls `runNext` when
`running < maxConcurrent`; `runNext` shifts the front of the queue and
starts it when the bound allows; the wrapper's `finally` decrements
`running` and calls `runNext` again.  The model names tasks by `Nat`
identifiers; `running` is the list of identifiers of started, not yet
settled tasks (its length is the source's `running` counter), and
`started` is the instrumented history of task starts in order, used to
state the FIFO property. -/

structure QueueState where
  queue : List Nat
  running : List Nat
  started : List Nat
  maxConcurrent : Nat
deriving DecidableEq, Repr

namespace RequestQueue

/-- `runNext` (lines 62–70). -/
def runNext (s : QueueState) : QueueState :=
  match s.queue with
  | [] => s
  | t :: rest =>
    if s.running.length < s.maxConcurrent then
      { s with queue := rest, running := s.running ++ [t], started := s.started ++ [t] }
    else s

/-- `add` (lines 41–60): enqueue, then `runNext` when under the bound. -/
def add (s : QueueState) (t : Nat) : QueueState :=
  let s' := { s with queue := s.queue ++ [t] }
  if s'.running.length < s'.maxConcurrent then runNext s' else s'

/-- The wrapper's `finally` (lines 49–52): the settled task leaves
`running`, then `runNext`.  Guarded on the task actually running. -/
def finish (s : QueueState) (t : Nat) : QueueState :=
  if t ∈ s.running then runNext { s with running := s.running.erase t } else s

inductive QEvent where
  | add (t : Nat)
  | finish (t : Nat)

def stepQueue (s : QueueState) : QEvent → QueueState
  | QEvent.add t => add s t
  | QEvent.finish t => finish s t

def initQueue (maxConcurrent : Nat) : QueueState := ⟨[], [], [], maxConcurrent⟩

def runQueue (maxConcurrent : Nat) (es : List QEvent) : QueueState :=
  es.foldl stepQueue (initQueue maxConcurrent)

/-- The tasks submitted by an event sequence, in submission order. -/
def submitted (es : List QEvent) : List Nat :=
  es.filterMap fun e =>
    match e with
    | QEvent.add t => some t
    | QEvent.finish _ => none

theorem runNext_max (s : QueueState) : s.maxConcurrent = (runNext s).maxConcurrent := by
  simp only [runNext]
  split
  · rfl
  · split
    · rfl
    · rfl

theorem runNext_bound (s : QueueState) (h : s.running.length ≤ s.maxConcurrent) :
    (runNext s).running.length ≤ s.maxConcurrent := by
  simp only [runNext]
  split
  · exact h
  · split
    · rename_i hlt
      simp only [List.length_append, List.length_cons, List.length_nil]
      omega
    · exact h

theorem runNext_order (s : QueueState) :
    (runNext s).started ++ (runNext s).queue = s.started ++ s.queue := by
  simp only [runNext]
  split
  · rfl
  · rename_i t rest hq
    split
    · simp [hq]
    · rw [hq]

theorem stepQueue_max (s : QueueState) (e : QEvent) :
    (stepQueue s e).maxConcurrent = s.maxConcurrent := by
  cases e with
  | add t =>
    simp only [stepQueue, add]
    by_cases h : s.running.length < s.maxConcurrent
    · rw [if_pos h, ← runNext_max]
    · rw [if_neg h]
  | finish t =>
    simp only [stepQueue, finish]
    by_cases h : t ∈ s.running
    · rw [if_pos h, ← runNext_max]
    · rw [if_neg h]

theorem stepQueue_bound (s : QueueState) (e : QEvent)
    (h : s.running.length ≤ s.maxConcurrent) :
    (stepQueue s e).running.length ≤ s.maxConcurrent := by
  cases e with
  | add t =>
    simp only [stepQueue, add]
    by_cases hlt : s.running.length < s.maxConcurrent
    · rw [if_pos hlt]
      exact runNext_bound _ (le_of_lt hlt)
    · rw [if_neg hlt]
      exact h
  | finish t =>
    simp only [stepQueue, finish]
    by_cases hmem : t ∈ s.running
    · rw [if_pos hmem]
      refine runNext_bound _ ?_
      calc (s.running.erase t).length ≤ s.running.length := List.length_erase_le _ _
        _ ≤ s.maxConcurrent := h
    · rw [if_neg hmem]
      exact h

theorem stepQueue_order (s : QueueState) (e : QEvent) :
    (stepQueue s e).started ++ (stepQueue s e).queue =
      s.started ++ s.queue ++
        (match e with
         | QEvent.add t => [t]
         | QEvent.finish _ => []) := by
  cases e with
  | add t =>
    simp only [stepQueue, add]
    by_cases hlt : s.running.length < s.maxConcurrent
    · rw [if_pos hlt, runNext_order]
      simp
    · rw [if_neg hlt]
      simp
  | finish t =>
    simp only [stepQueue, finish]
    by_cases hmem : t ∈ s.running
    · rw [if_pos hmem, runNext_order]
      simp
    · rw [if_neg hmem]
      simp

theorem runQueue_invariants (maxConcurrent : Nat) (es : List QEvent) :
    (runQueue maxConcurrent es).maxConcurrent = maxConcurrent ∧
    (runQueue maxConcurrent es).running.length ≤ maxConcurrent ∧
    (runQueue maxConcurrent es).started ++ (runQueue maxConcurrent es).queue =
      submitted es := by
  suffices h : ∀ s : QueueState, s.maxConcurrent = maxConcurrent →
      s.running.length ≤ maxConcurrent →
      (es.foldl stepQueue s).maxConcurrent = maxConcurrent ∧
      (es.foldl stepQueue s).running.length ≤ maxConcurrent ∧
      (es.foldl stepQueue s).started ++ (es.foldl stepQueue s).queue =
        s.started ++ s.queue ++ submitted es by
    have h0 := h (initQueue maxConcurrent) rfl (by simp [initQueue])
    simpa [initQueue, runQueue] using h0
  induction es with
  | nil => exact fun s hmax hrun => ⟨hmax, hrun, by simp [submitted]⟩
  | cons e es ih =>
    intro s hmax hrun
    have hmax' : (stepQueue s e).maxConcurrent = maxConcurrent := by
      rw [stepQueue_max, hmax]
    have hrun' : (stepQueue s e).running.length ≤ maxConcurrent := by
      rw [← hmax]
      exact stepQueue_bound s e (hmax ▸ hrun)
    obtain ⟨a, b, c⟩ := ih (stepQueue s e) hmax' hrun'
    refine ⟨a, b, ?_⟩
    rw [List.foldl_cons, c, stepQueue_order]
    cases e with
    | add t => simp [submitted, List.filterMap_cons]
    | finish t => simp [submitted, List.filterMap_cons]

theorem runNext_fires (s : QueueState) (q0 : Nat) (qrest : List Nat)
    (hq : s.queue = q0 :: qrest) (hlt : s.running.length < s.maxConcurrent) :
    runNext s = ⟨qrest, s.running ++ [q0], s.started ++ [q0], s.maxConcurrent⟩ := by
  simp only [runNext]
  split
  · rename_i h
    rw [hq] at h
    cases h
  · rename_i t rest hq2
    rw [hq] at hq2
    injection hq2 with h1 h2
    subst h1
    subst h2
    rw [if_pos hlt]

/-- Claim C2: for a `RequestQueue` constructed with `maxConcurrent = N`,
in every reachable state (any interleaving of `add` and task-completion
events): (a) at most `N` tasks run simultaneously; (b) tasks start in FIFO
submission order and none is dropped — the started history followed by the
still-queued tasks is exactly the submission sequence; and (c) completion
of any running task (success and failure both run the `finally`)
immediately admits the task at the front of the queue. -/
theorem requestQueue_concurrency (maxConcurrent : Nat) (es : List QEvent)
    (t q0 : Nat) (qrest : List Nat)
    (hrun : t ∈ (runQueue maxConcurrent es).running)
    (hq : (runQueue maxConcurrent es).queue = q0 :: qrest) :
    (runQueue maxConcurrent es).running.length ≤ maxConcurrent ∧
    (runQueue maxConcurrent es).started ++ (runQueue maxConcurrent es).queue =
      submitted es ∧
    (stepQueue (runQueue maxConcurrent es) (QEvent.finish t)).started =
      (runQueue maxConcurrent es).started ++ [q0] ∧
    (stepQueue (runQueue maxConcurrent es) (QEvent.finish t)).queue = qrest := by
  obtain ⟨hmax, hbound, horder⟩ := runQueue_invariants maxConcurrent es
  have hpos : 1 ≤ (runQueue maxConcurrent es).running.length :=
    List.length_pos.2 (List.ne_nil_of_mem hrun)
  have hlt : ((runQueue maxConcurrent es).running.erase t).length <
      (runQueue maxConcurrent es).maxConcurrent := by
    rw [List.length_erase_of_mem hrun, hmax]
    omega
  have hfires := runNext_fires
    { runQueue maxConcurrent es with running := (runQueue maxConcurrent es).running.erase t }
    q0 qrest hq hlt
  refine ⟨hbound, horder, ?_, ?_⟩ <;>
    simp only [stepQueue, finish, if_pos hrun, hfires]

/-- Witness for `requestQueue_concurrency`: bound 1, three submissions;
task 10 runs, 11 and 12 queue; finishing 10 admits 11. -/
theorem requestQueue_concurrency_witness :
    (10 ∈ (runQueue 1 [QEvent.add 10, QEvent.add 11, QEvent.add 12]).running ∧
      (runQueue 1 [QEvent.add 10, QEvent.add 11, QEvent.add 12]).queue = 11 :: [12]) ∧
    (runQueue 1 [QEvent.add 10, QEvent.add 11, QEvent.add 12]).running.length ≤ 1 ∧
    (runQueue 1 [QEvent.add 10, QEvent.add 11, QEvent.add 12]).started ++
        (runQueue 1 [QEvent.add 10, QEvent.add 11, QEvent.add 12]).queue =
      submitted [QEvent.add 10, QEvent.add 11, QEvent.add 12] ∧
    (stepQueue (runQueue 1 [QEvent.add 10, QEvent.add 11, QEvent.add 12])
        (QEvent.finish 10)).started =
      (runQueue 1 [QEvent.add 10, QEvent.add 11, QEvent.add 12]).started ++ [11] ∧
    (stepQueue (runQueue 1 [QEvent.add 10, QEvent.add 11, QEvent.add 12])
        (QEvent.finish 10)).queue = [12] := by
  have h := requestQueue_concurrency 1 [QEvent.add 10, QEvent.add 11, QEvent.add 12]
    10 11 [12] (by decide) (by decide)
  exact ⟨⟨by decide, by decide⟩, h⟩

end RequestQueue

/-! ## Base64 and UTF-8 decoding in `getFileContent` (api module, lines 374–440)

On a fetched contents response with `encoding === 'base64'` and a truthy
`content`, the source strips the newlines GitHub inserts into the base64
payload, decodes it with `atob` into a binary string, copies the char
codes into a `Uint8Array`, and decodes those bytes with
`TextDecoder('utf-8')`; if decoding raises, it falls back to the bare
`atob` result (one char per byte).  Bytes and code points are `Nat`s. -/

/-- The base64 alphabet: index 0–63 to ASCII code. -/
def b64Char (n : Nat) : Nat :=
  if n < 26 then 65 + n
  else if n < 52 then 97 + (n - 26)
  else if n < 62 then 48 + (n - 52)
  else if n = 62 then 43
  else 47

/-- Partial inverse of `b64Char` (the decoding table of `atob`). -/
def b64Val (c : Nat) : Option Nat :=
  if 65 ≤ c ∧ c ≤ 90 then some (c - 65)
  else if 97 ≤ c ∧ c ≤ 122 then some (26 + (c - 97))
  else if 48 ≤ c ∧ c ≤ 57 then some (52 + (c - 48))
  else if c = 43 then some 62
  else if c = 47 then some 63
  else none

/-- `btoa`-style base64 encoding of a byte sequence (the provider side of
the contract: GitHub sends `content` as base64 of the file bytes). -/
def base64Encode : List Nat → List Nat
  | b0 :: b1 :: b2 :: rest =>
    b64Char (b0 / 4) :: b64Char ((b0 % 4) * 16 + b1 / 16) ::
      b64Char ((b1 % 16) * 4 + b2 / 64) :: b64Char (b2 % 64) :: base64Encode rest
  | [b0, b1] =>
    [b64Char (b0 / 4), b64Char ((b0 % 4) * 16 + b1 / 16), b64Char ((b1 % 16) * 4), 61]
  | [b0] => [b64Char (b0 / 4), b64Char ((b0 % 4) * 16), 61, 61]
  | [] => []

/-- `atob`: base64 decoding to a byte sequence; `none` models the
`InvalidCharacterError` that `atob` throws on malformed input (61 is `=`). -/
def base64Decode : List Nat → Option (List Nat)
  | [] => some []
  | c0 :: c1 :: c2 :: c3 :: rest =>
    if c2 = 61 ∧ c3 = 61 ∧ rest = [] then
      match b64Val c0, b64Val c1 with
      | some v0, some v1 => some [v0 * 4 + v1 / 16]
      | _, _ => none
    else if c3 = 61 ∧ rest = [] then
      match b64Val c0, b64Val c1, b64Val c2 with
      | some v0, some v1, some v2 => some [v0 * 4 + v1 / 16, (v1 % 16) * 16 + v2 / 4]
      | _, _, _ => none
    else
      match b64Val c0, b64Val c1, b64Val c2, b64Val c3 with
      | some v0, some v1, some v2, some v3 =>
        (base64Decode rest).map fun bs =>
          (v0 * 4 + v1 / 16) :: ((v1 % 16) * 16 + v2 / 4) :: ((v2 % 4) * 64 + v3) :: bs
      | _, _, _, _ => none
  | _ => none

theorem b64Val_b64Char : ∀ n, n < 64 → b64Val (b64Char n) = some n := by decide

theorem b64Char_ne_61 : ∀ n, n < 64 → b64Char n ≠ 61 := by decide

theorem base64_roundTrip : ∀ bs : List Nat, (∀ b ∈ bs, b < 256) →
    base64Decode (base64Encode bs) = some bs
  | [], _ => by simp [base64Encode, base64Decode]
  | [b0], h => by
    have hb0 : b0 < 256 := h b0 (by simp)
    have h1 : b0 / 4 < 64 := by omega
    have h2 : (b0 % 4) * 16 < 64 := by omega
    have e1 : b0 / 4 * 4 + (b0 % 4) * 16 / 16 = b0 := by omega
    simp [base64Encode, base64Decode, b64Val_b64Char _ h1, b64Val_b64Char _ h2, e1]
    omega
  | [b0, b1], h => by
    have hb0 : b0 < 256 := h b0 (by simp)
    have hb1 : b1 < 256 := h b1 (by simp)
    have h1 : b0 / 4 < 64 := by omega
    have h2 : (b0 % 4) * 16 + b1 / 16 < 64 := by omega
    have h3 : (b1 % 16) * 4 < 64 := by omega
    have e1 : b0 / 4 * 4 + ((b0 % 4) * 16 + b1 / 16) / 16 = b0 := by omega
    have e2 : ((b0 % 4) * 16 + b1 / 16) % 16 * 16 + (b1 % 16) * 4 / 4 = b1 := by omega
    simp [base64Encode, base64Decode, b64Val_b64Char _ h1, b64Val_b64Char _ h2,
      b64Val_b64Char _ h3, b64Char_ne_61 _ h3, e1, e2]
    omega
  | [b0, b1, b2], h => by
    have hb0 : b0 < 256 := h b0 (by simp)
    have hb1 : b1 < 256 := h b1 (by simp)
    have hb2 : b2 < 256 := h b2 (by simp)
    have h1 : b0 / 4 < 64 := by omega
    have h2 : (b0 % 4) * 16 + b1 / 16 < 64 := by omega
    have h3 : (b1 % 16) * 4 + b2 / 64 < 64 := by omega
    have h4 : b2 % 64 < 64 := by omega
    have e1 : b0 / 4 * 4 + ((b0 % 4) * 16 + b1 / 16) / 16 = b0 := by omega
    have e2 : ((b0 % 4) * 16 + b1 / 16) % 16 * 16 + ((b1 % 16) * 4 + b2 / 64) / 4 = b1 := by
      omega
    have e3 : ((b1 % 16) * 4 + b2 / 64) % 4 * 64 + b2 % 64 = b2 := by omega
    simp [base64Encode, base64Decode, b64Val_b64Char _ h1, b64Val_b64Char _ h2,
      b64Val_b64Char _ h3, b64Val_b64Char _ h4, b64Char_ne_61 _ h3, b64Char_ne_61 _ h4,
      e1, e2, e3]
  | b0 :: b1 :: b2 :: b3 :: rest, h => by
    have hb0 : b0 < 256 := h b0 (by simp)
    have hb1 : b1 < 256 := h b1 (by simp)
    have hb2 : b2 < 256 := h b2 (by simp)
    have h1 : b0 / 4 < 64 := by omega
    have h2 : (b0 % 4) * 16 + b1 / 16 < 64 := by omega
    have h3 : (b1 % 16) * 4 + b2 / 64 < 64 := by omega
    have h4 : b2 % 64 < 64 := by omega
    have e1 : b0 / 4 * 4 + ((b0 % 4) * 16 + b1 / 16) / 16 = b0 := by omega
    have e2 : ((b0 % 4) * 16 + b1 / 16) % 16 * 16 + ((b1 % 16) * 4 + b2 / 64) / 4 = b1 := by
      omega
    have e3 : ((b1 % 16) * 4 + b2 / 64) % 4 * 64 + b2 % 64 = b2 := by omega
    have henc_ne : base64Encode (b3 :: rest) ≠ [] := by
      cases rest with
      | nil => simp [base64Encode]
      | cons b4 rest2 =>
        cases rest2 with
        | nil => simp [base64Encode]
        | cons b5 rest3 => simp [base64Encode]
    have ih := base64_roundTrip (b3 :: rest) (fun b hb => h b (by simp [hb]))
    rw [show base64Encode (b0 :: b1 :: b2 :: b3 :: rest) =
      b64Char (b0 / 4) :: b64Char ((b0 % 4) * 16 + b1 / 16) ::
        b64Char ((b1 % 16) * 4 + b2 / 64) :: b64Char (b2 % 64) ::
          base64Encode (b3 :: rest) from rfl]
    cases henc : base64Encode (b3 :: rest) with
    | nil => exact absurd henc henc_ne
    | cons c4 crest =>
      rw [henc] at ih
      simp [base64Decode, b64Val_b64Char _ h1, b64Val_b64Char _ h2,
        b64Val_b64Char _ h3, b64Val_b64Char _ h4, b64Char_ne_61 _ h3, b64Char_ne_61 _ h4,
        ih, e1, e2, e3]

/-- A Unicode scalar value (what a well-formed UTF-8 byte sequence decodes
to): below 0x110000 and not a surrogate. -/
def validScalar (c : Nat) : Prop :=
  c < 1114112 ∧ (c < 55296 ∨ 57343 < c)

instance (c : Nat) : Decidable (validScalar c) := by
  unfold validScalar
  infer_instance

/-- UTF-8 encoding of one scalar value (the byte layout the provider's
base64 payload carries for text files). -/
def utf8EncodeChar (c : Nat) : List Nat :=
  if c < 128 then [c]
  else if c < 2048 then [192 + c / 64, 128 + c % 64]
  else if c < 65536 then [224 + c / 4096, 128 + (c / 64) % 64, 128 + c % 64]
  else [240 + c / 262144, 128 + (c / 4096) % 64, 128 + (c / 64) % 64, 128 + c % 64]

def utf8Encode : List Nat → List Nat
  | [] => []
  | c :: cs => utf8EncodeChar c ++ utf8Encode cs

/-- The 2-byte continuation of `utf8Decode`: check the continuation byte
and the shortest-form constraint, then prepend the scalar. -/
def utf8Cont2 (b b1 : Nat) (rest : Option (List Nat)) : Option (List Nat) :=
  if 128 ≤ b1 ∧ b1 < 192 then
    if 128 ≤ (b - 192) * 64 + (b1 - 128) then
      rest.map (fun cs => ((b - 192) * 64 + (b1 - 128)) :: cs)
    else none
  else none

/-- The 3-byte continuation of `utf8Decode` (also excludes surrogates). -/
def utf8Cont3 (b b1 b2 : Nat) (rest : Option (List Nat)) : Option (List Nat) :=
  if (128 ≤ b1 ∧ b1 < 192) ∧ (128 ≤ b2 ∧ b2 < 192) then
    if 2048 ≤ (b - 224) * 4096 + (b1 - 128) * 64 + (b2 - 128) ∧
        ((b - 224) * 4096 + (b1 - 128) * 64 + (b2 - 128) < 55296 ∨
          57343 < (b - 224) * 4096 + (b1 - 128) * 64 + (b2 - 128)) then
      rest.map (fun cs => ((b - 224) * 4096 + (b1 - 128) * 64 + (b2 - 128)) :: cs)
    else none
  else none

/-- The 4-byte continuation of `utf8Decode`. -/
def utf8Cont4 (b b1 b2 b3 : Nat) (rest : Option (List Nat)) : Option (List Nat) :=
  if (128 ≤ b1 ∧ b1 < 192) ∧ (128 ≤ b2 ∧ b2 < 192) ∧ (128 ≤ b3 ∧ b3 < 192) then
    if 65536 ≤ (b - 240) * 262144 + (b1 - 128) * 4096 + (b2 - 128) * 64 + (b3 - 128) ∧
        (b - 240) * 262144 + (b1 - 128) * 4096 + (b2 - 128) * 64 + (b3 - 128) < 1114112 then
      rest.map
        (fun cs =>
          ((b - 240) * 262144 + (b1 - 128) * 4096 + (b2 - 128) * 64 + (b3 - 128)) :: cs)
    else none
  else none

/-- `TextDecoder('utf-8')` on a byte sequence, as a partial function: the
`some` case is a well-formed decode (shortest-form, surrogate-free, in
range); `none` is any ill-formed input (where the real `TextDecoder`
would substitute U+FFFD — never hit by the round-trip theorem, and
handled by the source's fallback branch). -/
def utf8Decode : List Nat → Option (List Nat)
  | [] => some []
  | b :: bs =>
    if b < 128 then (utf8Decode bs).map (fun cs => b :: cs)
    else if b < 192 then none
    else if b < 224 then
      match bs.head? with
      | some b1 => utf8Cont2 b b1 (utf8Decode (bs.drop 1))
      | none => none
    else if b < 240 then
      match bs.head?, (bs.drop 1).head? with
      | some b1, some b2 => utf8Cont3 b b1 b2 (utf8Decode (bs.drop 2))
      | _, _ => none
    else if b < 248 then
      match bs.head?, (bs.drop 1).head?, (bs.drop 2).head? with
      | some b1, some b2, some b3 => utf8Cont4 b b1 b2 b3 (utf8Decode (bs.drop 3))
      | _, _, _ => none
    else none
termination_by l => l.length
decreasing_by
  all_goals simp
  all_goals omega

theorem utf8EncodeChar_lt (c : Nat) (hc : c < 1114112) :
    ∀ b ∈ utf8EncodeChar c, b < 256 := by
  intro b hb
  simp only [utf8EncodeChar] at hb
  by_cases h1 : c < 128
  · simp [h1] at hb
    omega
  · by_cases h2 : c < 2048
    · simp [h1, h2] at hb
      omega
    · by_cases h3 : c < 65536
      · simp [h1, h2, h3] at hb
        rcases hb with rfl | rfl | rfl <;> omega
      · simp [h1, h2, h3] at hb
        rcases hb with rfl | rfl | rfl | rfl <;> omega

theorem utf8Encode_lt (cs : List Nat) (h : ∀ c ∈ cs, c < 1114112) :
    ∀ b ∈ utf8Encode cs, b < 256 := by
  induction cs with
  | nil => simp [utf8Encode]
  | cons c cs ih =>
    intro b hb
    simp only [utf8Encode, List.mem_append] at hb
    rcases hb with hb | hb
    · exact utf8EncodeChar_lt c (h c (by simp)) b hb
    · exact ih (fun x hx => h x (by simp [hx])) b hb

theorem utf8Decode_encodeChar (c : Nat) (hc : validScalar c) (bs : List Nat) :
    utf8Decode (utf8EncodeChar c ++ bs) = (utf8Decode bs).map (fun cs => c :: cs) := by
  obtain ⟨hlt, hsur⟩ := hc
  by_cases h1 : c < 128
  · rw [show utf8EncodeChar c = [c] from by simp [utf8EncodeChar, h1]]
    rw [List.cons_append, List.nil_append]
    rw [utf8Decode, if_pos h1]
  · by_cases h2 : c < 2048
    · rw [show utf8EncodeChar c = [192 + c / 64, 128 + c % 64] from by
        simp [utf8EncodeChar, h1, h2]]
      have ha : ¬(192 + c / 64 < 128) := by omega
      have hb : ¬(192 + c / 64 < 192) := by omega
      have hcc : 192 + c / 64 < 224 := by omega
      have hd : 128 ≤ 128 + c % 64 ∧ 128 + c % 64 < 192 := by omega
      have he : 128 ≤ (192 + c / 64 - 192) * 64 + (128 + c % 64 - 128) := by omega
      have hval : (192 + c / 64 - 192) * 64 + (128 + c % 64 - 128) = c := by omega
      rw [List.cons_append, List.cons_append, List.nil_append]
      rw [utf8Decode, if_neg ha, if_neg hb, if_pos hcc]
      show utf8Cont2 (192 + c / 64) (128 + c % 64) (utf8Decode bs) =
        (utf8Decode bs).map fun cs => c :: cs
      simp only [utf8Cont2, if_pos hd, if_pos he, hval]
      rw [if_pos (show 128 ≤ c by omega)]
    · by_cases h3 : c < 65536
      · rw [show utf8EncodeChar c = [224 + c / 4096, 128 + (c / 64) % 64, 128 + c % 64] from by
          simp [utf8EncodeChar, h1, h2, h3]]
        have ha : ¬(224 + c / 4096 < 128) := by omega
        have hb : ¬(224 + c / 4096 < 192) := by omega
        have hcc : ¬(224 + c / 4096 < 224) := by omega
        have hd : 224 + c / 4096 < 240 := by omega
        have he : (128 ≤ 128 + (c / 64) % 64 ∧ 128 + (c / 64) % 64 < 192) ∧
            128 ≤ 128 + c % 64 ∧ 128 + c % 64 < 192 := by omega
        have hval : (224 + c / 4096 - 224) * 4096 + (128 + (c / 64) % 64 - 128) * 64 +
            (128 + c % 64 - 128) = c := by omega
        have hrange : 2048 ≤ (224 + c / 4096 - 224) * 4096 +
              (128 + (c / 64) % 64 - 128) * 64 + (128 + c % 64 - 128) ∧
            ((224 + c / 4096 - 224) * 4096 + (128 + (c / 64) % 64 - 128) * 64 +
                (128 + c % 64 - 128) < 55296 ∨
              57343 < (224 + c / 4096 - 224) * 4096 + (128 + (c / 64) % 64 - 128) * 64 +
                (128 + c % 64 - 128)) := by
          rw [hval]
          exact ⟨by omega, hsur⟩
        rw [List.cons_append, List.cons_append, List.cons_append, List.nil_append]
        rw [utf8Decode, if_neg ha, if_neg hb, if_neg hcc, if_pos hd]
        show utf8Cont3 (224 + c / 4096) (128 + (c / 64) % 64) (128 + c % 64)
            (utf8Decode bs) = (utf8Decode bs).map fun cs => c :: cs
        simp only [utf8Cont3, if_pos he, if_pos hrange, hval]
        rw [if_pos (show 2048 ≤ c ∧ (c < 55296 ∨ 57343 < c) from ⟨by omega, hsur⟩)]
      · rw [show utf8EncodeChar c =
          [240 + c / 262144, 128 + (c / 4096) % 64, 128 + (c / 64) % 64, 128 + c % 64] from by
          simp [utf8EncodeChar, h1, h2, h3]]
        have ha : ¬(240 + c / 262144 < 128) := by omega
        have hb : ¬(240 + c / 262144 < 192) := by omega
        have hcc : ¬(240 + c / 262144 < 224) := by omega
        have hd : ¬(240 + c / 262144 < 240) := by omega
        have he : 240 + c / 262144 < 248 := by omega
        have hf : (128 ≤ 128 + (c / 4096) % 64 ∧ 128 + (c / 4096) % 64 < 192) ∧
            (128 ≤ 128 + (c / 64) % 64 ∧ 128 + (c / 64) % 64 < 192) ∧
            128 ≤ 128 + c % 64 ∧ 128 + c % 64 < 192 := by omega
        have hval : (240 + c / 262144 - 240) * 262144 + (128 + (c / 4096) % 64 - 128) * 4096 +
            (128 + (c / 64) % 64 - 128) * 64 + (128 + c % 64 - 128) = c := by omega
        have hrange : 65536 ≤ (240 + c / 262144 - 240) * 262144 +
              (128 + (c / 4096) % 64 - 128) * 4096 +
              (128 + (c / 64) % 64 - 128) * 64 + (128 + c % 64 - 128) ∧
            (240 + c / 262144 - 240) * 262144 + (128 + (c / 4096) % 64 - 128) * 4096 +
              (128 + (c / 64) % 64 - 128) * 64 + (128 + c % 64 - 128) < 1114112 := by
          rw [hval]
          omega
        rw [List.cons_append, List.cons_append, List.cons_append, List.cons_append,
          List.nil_append]
        rw [utf8Decode, if_neg ha, if_neg hb, if_neg hcc, if_neg hd, if_pos he]
        show utf8Cont4 (240 + c / 262144) (128 + (c / 4096) % 64) (128 + (c / 64) % 64)
            (128 + c % 64) (utf8Decode bs) = (utf8Decode bs).map fun cs => c :: cs
        simp only [utf8Cont4, if_pos hf, if_pos hrange, hval]
        rw [if_pos (show 65536 ≤ c ∧ c < 1114112 from ⟨by omega, hlt⟩)]

theorem utf8_roundTrip (cs : List Nat) (h : ∀ c ∈ cs, validScalar c) :
    utf8Decode (utf8Encode cs) = some cs := by
  induction cs with
  | nil => simp [utf8Encode, utf8Decode]
  | cons c cs ih =>
    rw [show utf8Encode (c :: cs) = utf8EncodeChar c ++ utf8Encode cs from rfl]
    rw [utf8Decode_encodeChar c (h c (by simp)) (utf8Encode cs)]
    rw [ih (fun x hx => h x (by simp [hx]))]
    rfl

theorem utf8EncodeChar_ne_nil (c : Nat) : utf8EncodeChar c ≠ [] := by
  simp only [utf8EncodeChar]
  split_ifs <;> simp

theorem utf8Encode_eq_nil (cs : List Nat) (h : utf8Encode cs = []) : cs = [] := by
  cases cs with
  | nil => rfl
  | cons c cs' =>
    simp only [utf8Encode, List.append_eq_nil] at h
    exact absurd h.1 (utf8EncodeChar_ne_nil c)

theorem base64Encode_eq_nil : ∀ bs : List Nat, base64Encode bs = [] → bs = []
  | [], _ => rfl
  | [b0], h => by simp [base64Encode] at h
  | [b0, b1], h => by simp [base64Encode] at h
  | b0 :: b1 :: b2 :: rest, h => by simp [base64Encode] at h

/-- A GitHub contents-API response as consumed by `getFileContent`
(api module, lines 399–425): the `encoding` field and the characters of
the base64 `content` payload (char codes; GitHub intersperses newlines,
char code 10, which the source strips with `replace(/\n/g, '')`). -/
structure ContentsResponse where
  encoding : String
  content : List Nat

/-- The decoding section of `getFileContent` (api module, lines 401–425):
when `encoding === 'base64'` and `content` is truthy, strip newlines, run
`atob` (`base64Decode`; `none` is the thrown `InvalidCharacterError`,
which the fallback also hits, rejecting the promise), copy the char codes
into bytes, and decode those bytes as UTF-8; if the UTF-8 decode is not
possible the source's catch falls back to the bare `atob` result, one
character per byte.  Otherwise the content stays `''`. -/
def getFileContentDecode (r : ContentsResponse) : Option (List Nat) :=
  if r.encoding = "base64" ∧ r.content ≠ [] then
    match base64Decode (r.content.filter (fun ch => ch ≠ 10)) with
    | some bytes =>
      some
        (match utf8Decode bytes with
         | some cs => cs
         | none => bytes)
    | none => none
  else some []

/-- Claim C3: base64/UTF-8 round-trip.  For every file whose provider
response payload is the base64 encoding of the UTF-8 bytes of a sequence
of Unicode scalar values (multi-byte characters included), the
`getFileContent` decoding path decodes the base64 into raw bytes and then
interprets those bytes as UTF-8 — not as a byte-by-byte character
mapping — returning exactly the original text. -/
theorem getFileContent_utf8_roundTrip (cs : List Nat) (r : ContentsResponse)
    (hvalid : ∀ c ∈ cs, validScalar c)
    (henc : r.encoding = "base64")
    (hcontent : r.content.filter (fun ch => ch ≠ 10) = base64Encode (utf8Encode cs)) :
    getFileContentDecode r = some cs := by
  by_cases hnil : r.content = []
  · have hcs : cs = [] := by
      rw [hnil] at hcontent
      simp only [List.filter_nil] at hcontent
      exact utf8Encode_eq_nil cs (base64Encode_eq_nil _ hcontent.symm)
    simp only [getFileContentDecode]
    rw [if_neg (fun hcond => hcond.2 hnil), hcs]
  · have hbytes : ∀ b ∈ utf8Encode cs, b < 256 :=
      utf8Encode_lt cs (fun c hc => (hvalid c hc).1)
    simp only [getFileContentDecode]
    rw [if_pos ⟨henc, hnil⟩, hcontent, base64_roundTrip _ hbytes]
    show some
        (match utf8Decode (utf8Encode cs) with
         | some cs2 => cs2
         | none => utf8Encode cs) = some cs
    rw [utf8_roundTrip cs hvalid]

/-- Witness for `getFileContent_utf8_roundTrip`: the Japanese text
こんにちは (five scalar values, three UTF-8 bytes each). -/
theorem getFileContent_utf8_roundTrip_witness :
    ((∀ c ∈ [12371, 12435, 12395, 12385, 12399], validScalar c) ∧
      (ContentsResponse.mk ("base64")
        (base64Encode (utf8Encode [12371, 12435, 12395, 12385, 12399]))).content.filter
          (fun ch => ch ≠ 10) =
        base64Encode (utf8Encode [12371, 12435, 12395, 12385, 12399])) ∧
    getFileContentDecode
        (ContentsResponse.mk ("base64")
          (base64Encode (utf8Encode [12371, 12435, 12395, 12385, 12399]))) =
      some [12371, 12435, 12395, 12385, 12399] := by
  refine ⟨⟨by decide, by decide⟩, ?_⟩
  exact getFileContent_utf8_roundTrip [12371, 12435, 12395, 12385, 12399] _
    (by decide) rfl (by decide)

/-! ## HTTP failure classification in `fetchGitHubApi`
(api module, lines 260–279)

On a non-ok response the source builds `errorMessage`, starting from the
generic `GitHub API error: {status} {statusText}` and replacing it for
404, for 403 (split on the `X-RateLimit-Remaining` header being the
string `0`), and for 401, then throws.  The four specific messages are
the classification; they are pairwise distinct and none coincides with
the generic form. -/

/-- An ASCII apostrophe (for the message text around the token name). -/
def sglq : String := String.mk [Char.ofNat 39]

def msg404 : String :=
  "リポジトリまたはファイルが見つかりません (404)。URLを確認してください。"

def msgRateLimit : String :=
  "GitHub APIのレート制限に達しました (403)。環境変数 " ++ sglq ++ "VITE_GITHUB_TOKEN" ++
    sglq ++ " に個人アクセストークンを設定することで制限を上げられます。"

def msg403 : String :=
  "アクセス権限がありません (403)。プライベートリポジトリには認証が必要です。"

def msg401 : String :=
  "認証エラー (401)。GitHubトークンが無効または期限切れです。"

/-- The response fields `fetchGitHubApi` reads when classifying. -/
structure HttpResponse where
  status : Nat
  statusText : String
  rateLimitRemaining : Option String
  body : String

/-- `Response.ok`: status in the 2xx range. -/
def respOk (status : Nat) : Bool := 200 ≤ status && status < 300

/-- The `errorMessage` computation (lines 262–276). -/
def githubErrorMessage (r : HttpResponse) : String :=
  if r.status = 404 then msg404
  else if r.status = 403 then
    if r.rateLimitRemaining = some ("0") then msgRateLimit else msg403
  else if r.status = 401 then msg401
  else "GitHub API error: " ++ toString r.status ++ " " ++ r.statusText

/-- The response handling of `fetchGitHubApi`: an ok response resolves
with the body, any other response rejects with the classified message. -/
def fetchGitHubApi_onResponse (r : HttpResponse) : Except String String :=
  if respOk r.status then Except.ok r.body else Except.error (githubErrorMessage r)

theorem msgRateLimit_ne_generic (st : String) :
    "GitHub API error: " ++ toString (403 : Nat) ++ " " ++ st ≠ msgRateLimit := by
  intro h
  obtain ⟨l⟩ := st
  have hdata := congrArg String.data h
  have h10 : ("GitHub API error: " ++ toString (403 : Nat) ++ " " ++
      String.mk l).data.get? 10 = msgRateLimit.data.get? 10 := by rw [hdata]
  rw [show ("GitHub API error: " ++ toString (403 : Nat) ++ " " ++ String.mk l).data.get? 10 =
      some ' ' from rfl] at h10
  rw [show msgRateLimit.data.get? 10 = some 'の' from rfl] at h10
  exact absurd h10 (by decide)

/-- Claim C9: rate-limit classification.  A 403 response whose
`X-RateLimit-Remaining` header is `0` fails with the distinct rate-limited
message (not the generic provider error); a 403 with remaining quota fails
as forbidden/auth-required; 404 fails as not-found; 401 as
invalid-credential — and the four classifications are pairwise
distinguishable in the surfaced error, none equal to the generic form. -/
theorem fetchGitHubApi_error_classification (r1 r2 r3 r4 : HttpResponse)
    (h1 : r1.status = 403) (h1q : r1.rateLimitRemaining = some ("0"))
    (h2 : r2.status = 403) (h2q : r2.rateLimitRemaining ≠ some ("0"))
    (h3 : r3.status = 404) (h4 : r4.status = 401) :
    fetchGitHubApi_onResponse r1 = Except.error msgRateLimit ∧
    fetchGitHubApi_onResponse r2 = Except.error msg403 ∧
    fetchGitHubApi_onResponse r3 = Except.error msg404 ∧
    fetchGitHubApi_onResponse r4 = Except.error msg401 ∧
    msgRateLimit ≠ msg403 ∧ msgRateLimit ≠ msg404 ∧ msgRateLimit ≠ msg401 ∧
    msg403 ≠ msg404 ∧ msg403 ≠ msg401 ∧ msg404 ≠ msg401 ∧
    (∀ st : String, msgRateLimit ≠ "GitHub API error: " ++ toString (403 : Nat) ++ " " ++ st) := by
  refine ⟨?_, ?_, ?_, ?_, by decide, by decide, by decide, by decide, by decide, by decide,
    fun st h => msgRateLimit_ne_generic st h.symm⟩
  · simp [fetchGitHubApi_onResponse, respOk, githubErrorMessage, h1, h1q]
  · simp [fetchGitHubApi_onResponse, respOk, githubErrorMessage, h2, h2q]
  · simp [fetchGitHubApi_onResponse, respOk, githubErrorMessage, h3]
  · simp [fetchGitHubApi_onResponse, respOk, githubErrorMessage, h4]

/-- Witness for `fetchGitHubApi_error_classification`: concrete 403 (quota
0 and quota 42), 404 and 401 responses. -/
theorem fetchGitHubApi_error_classification_witness :
    ((HttpResponse.mk 403 ("Forbidden") (some ("0")) ("")).status = 403 ∧
      (HttpResponse.mk 403 ("Forbidden") (some ("42")) ("")).rateLimitRemaining ≠
        some ("0")) ∧
    fetchGitHubApi_onResponse (HttpResponse.mk 403 ("Forbidden") (some ("0")) ("")) =
      Except.error msgRateLimit ∧
    fetchGitHubApi_onResponse (HttpResponse.mk 403 ("Forbidden") (some ("42")) ("")) =
      Except.error msg403 ∧
    fetchGitHubApi_onResponse (HttpResponse.mk 404 ("Not Found") none ("")) =
      Except.error msg404 ∧
    fetchGitHubApi_onResponse (HttpResponse.mk 401 ("Unauthorized") none ("")) =
      Except.error msg401 := by
  have h := fetchGitHubApi_error_classification
    (HttpResponse.mk 403 ("Forbidden") (some ("0")) (""))
    (HttpResponse.mk 403 ("Forbidden") (some ("42")) (""))
    (HttpResponse.mk 404 ("Not Found") none (""))
    (HttpResponse.mk 401 ("Unauthorized") none (""))
    rfl rfl rfl (by decide) rfl rfl
  exact ⟨⟨rfl, by decide⟩, h.1, h.2.1, h.2.2.1, h.2.2.2.1⟩

/-! ## `fileUtils` helpers used by the service (lib/github/fileUtils)

`getFileExtension` (lines 159–162) matches `/\.([^.]+)$/` — the nonempty
dot-free run after the last dot — and lowercases it; `isLikelyBinaryFile`
(lines 170–188) checks it against a fixed extension list. -/

def getFileExtension (fileName : String) : String :=
  let rev := fileName.toList.reverse
  let e := rev.takeWhile (fun c => c ≠ '.')
  match rev.dropWhile (fun c => c ≠ '.') with
  | '.' :: _ => if e = [] then "" else String.mk ((e.reverse).map Char.toLower)
  | _ => ""

def binaryExtensions : List String :=
  [r"png", r"jpg", r"jpeg", r"gif", r"bmp", r"ico", r"webp", r"tiff", r"tif",
   r"mp3", r"wav", r"ogg", r"mp4", r"avi", r"mov", r"mkv", r"flv", r"wmv",
   r"zip", r"rar", r"tar", r"gz", r"7z", r"bz2", r"xz",
   r"pdf", r"doc", r"docx", r"xls", r"xlsx", r"ppt", r"pptx",
   r"exe", r"dll", r"so", r"dylib", r"bin", r"obj", r"o", r"a", r"lib", r"out", r"app",
   r"db", r"sqlite", r"pyc", r"class", r"jar"]

def isLikelyBinaryFile (fileName : String) : Bool :=
  binaryExtensions.contains (getFileExtension fileName)

/-- The hierarchical tree the UI hands back to the service (source
interface `FileNode`; absent `children` behaves as the empty list in every
modelled operation). -/
inductive FileNode where
  | node (name : String) (path : String) (type : String) (children : List FileNode)

mutual
/-- `getAllFilePaths` (GitHubService, lines 181–192): a file node with a
truthy path contributes itself; otherwise the children are flattened. -/
def getAllFilePaths : FileNode → List String
  | FileNode.node _ path ty children =>
    if ty = "file" ∧ path ≠ "" then [path] else getAllFilePathsList children

def getAllFilePathsList : List FileNode → List String
  | [] => []
  | c :: cs => getAllFilePaths c ++ getAllFilePathsList cs
end

/-! ## `fetchAllFilesContent` (GitHubService, lines 161–289)

The batch fetch filters the flattened paths (binary files excluded; a
path is also skipped when `currentFiles[path]` is truthy — note that JS
truthiness makes an empty-string content count as absent), then fetches
the remainder in batches of 5 through the request queue with a per-file
timeout, recording each file's result — content, or the inline
`// Error fetching file: …` marker on failure — into a copy of
`currentFiles`.  Batch boundaries, the inter-batch delay and the queue
only schedule the fetches; every write is keyed by the path with a value
determined by that path alone, so the final mapping is the fold below
over the filtered paths (`fetch` abstracts one fetch through
queue+timeout, `Except.error` covering both provider errors and the
timeout).  If the final mapping is empty the operation throws, and the
catch returns an empty mapping with the message (rewritten when it
mentions a rate limit); likewise when `repoData` or `fileTree` is falsy.
The in-flight reuse wrapper (`pendingFileContentRequests`) de-duplicates
whole calls and does not change a single call's result; the progress
toasts are UI-only. -/

structure RepoData where
  url : String
  owner : String
  repo : String
  branch : String

/-- The inline per-file error marker (line 245). -/
def errMarker (msg : String) : String := "// Error fetching file: " ++ msg

/-- JS truthiness of `currentFiles[path]`. -/
def truthy (m : List (String × String)) (k : String) : Bool :=
  match alookup k m with
  | some v => v ≠ ""
  | none => false

/-- `filesToProcess` (line 203). -/
def filesToProcessOf (fileTree : FileNode) (currentFiles : List (String × String)) :
    List String :=
  (getAllFilePaths fileTree).filter fun p => !(isLikelyBinaryFile p) && !(truthy currentFiles p)

/-- What one file's fetch stores for its path (lines 222–246). -/
def resultFor (fetch : String → Except String String) (p : String) : String :=
  match fetch p with
  | Except.ok content => content
  | Except.error e => errMarker e

/-- The accumulated `newAllFiles` mapping after the batch loop. -/
def mergeFetched (fetch : String → Except String String) (paths : List String)
    (currentFiles : List (String × String)) : List (String × String) :=
  paths.foldl (fun acc p => setKey acc p (resultFor fetch p)) currentFiles

def noRepoMsg : String := "リポジトリデータがありません。"

def noFilesMsg : String :=
  "ファイルを読み込めませんでした。URLを確認するか、別のリポジトリを試してください。"

def bigRateMsg : String :=
  "GitHub APIのレート制限に達しました。環境変数 " ++ sglq ++ "VITE_GITHUB_TOKEN" ++ sglq ++
    " に個人アクセストークンを設定することで制限を上げられます。または、しばらく時間をおいて再試行してください。"

def containsStr (s needle : String) : Bool := containsSub needle.toList s.toList

/-- The catch-block rewrite of rate-limit messages (lines 272–275). -/
def rewriteRateLimit (msg : String) : String :=
  if containsStr msg (r"rate limit") || containsStr msg (r"レート制限") then bigRateMsg
  else msg

/-- `fetchAllFilesContent`: result mapping and operation-level error. -/
def fetchAllFilesContent (fetch : String → Except String String)
    (repoData : Option RepoData) (fileTree : Option FileNode)
    (currentFiles : List (String × String)) :
    List (String × String) × Option String :=
  match repoData, fileTree with
  | some _, some tree =>
    let filesToProcess := filesToProcessOf tree currentFiles
    let newAllFiles := mergeFetched fetch filesToProcess currentFiles
    if newAllFiles = [] then ([], some (rewriteRateLimit noFilesMsg))
    else (newAllFiles, none)
  | _, _ => ([], some (rewriteRateLimit noRepoMsg))

theorem alookup_mergeFetched (fetch : String → Except String String) :
    ∀ (paths : List String) (m : List (String × String)) (p : String),
      alookup p (mergeFetched fetch paths m) =
        if p ∈ paths then some (resultFor fetch p) else alookup p m := by
  intro paths
  induction paths with
  | nil =>
    intro m p
    simp [mergeFetched]
  | cons q l' ih =>
    intro m p
    rw [show mergeFetched fetch (q :: l') m =
      mergeFetched fetch l' (setKey m q (resultFor fetch q)) from rfl]
    rw [ih]
    by_cases hp : p ∈ l'
    · simp [hp]
    · by_cases hpq : p = q
      · subst hpq
        simp [hp, alookup_setKey_self]
      · simp [hp, hpq, alookup_setKey_ne m q p (resultFor fetch q) hpq]

theorem mergeFetched_ne_nil_left (fetch : String → Except String String) :
    ∀ (paths : List String) (m : List (String × String)), m ≠ [] →
      mergeFetched fetch paths m ≠ [] := by
  intro paths
  induction paths with
  | nil => exact fun m h => h
  | cons q l' ih =>
    intro m h
    rw [show mergeFetched fetch (q :: l') m =
      mergeFetched fetch l' (setKey m q (resultFor fetch q)) from rfl]
    exact ih _ (setKey_ne_nil m q _)

theorem mergeFetched_eq_nil (fetch : String → Except String String)
    (paths : List String) (m : List (String × String))
    (h : mergeFetched fetch paths m = []) : m = [] ∧ paths = [] := by
  cases paths with
  | nil => exact ⟨h, rfl⟩
  | cons q l' =>
    rw [show mergeFetched fetch (q :: l') m =
      mergeFetched fetch l' (setKey m q (resultFor fetch q)) from rfl] at h
    exact absurd h (mergeFetched_ne_nil_left fetch l' _ (setKey_ne_nil m q _))

theorem errMarker_ne_empty (msg : String) : errMarker msg ≠ "" := by
  intro h
  obtain ⟨l⟩ := msg
  have hdata := congrArg String.data h
  have hlen := congrArg List.length hdata
  rw [show (errMarker (String.mk l)).data = (r"// Error fetching file: ").data ++ l from rfl]
    at hlen
  simp at hlen

theorem filter_eq_nil_of_false {α : Type} (l : List α) (p : α → Bool)
    (h : ∀ a ∈ l, p a = false) : l.filter p = [] := by
  induction l with
  | nil => rfl
  | cons a l' ih =>
    have ha := h a (List.mem_cons_self a l')
    simp only [List.filter_cons, ha, Bool.false_eq_true, if_false]
    exact ih (fun x hx => h x (List.mem_cons_of_mem _ hx))

theorem fetchAllFilesContent_eval (fetch : String → Except String String)
    (rd : RepoData) (tree : FileNode) (cur : List (String × String)) :
    fetchAllFilesContent fetch (some rd) (some tree) cur =
      if mergeFetched fetch (filesToProcessOf tree cur) cur = [] then
        ([], some (rewriteRateLimit noFilesMsg))
      else (mergeFetched fetch (filesToProcessOf tree cur) cur, none) := rfl

/-- Claim C4: per-file failure isolation.  When any single file's fetch
fails, the failure is caught locally and recorded in the result mapping
under that path as the inline error-marker string; the batch is not
aborted (the operation-level error is `none`, and every other processed
path still gets its own result); and an operation-level error is returned
only when the set of attempted files is empty and there was no previous
content at all. -/
theorem fetchAllFilesContent_per_file_isolation
    (fetch : String → Except String String) (rd : RepoData) (tree : FileNode)
    (currentFiles : List (String × String)) (p msg : String)
    (hp : p ∈ filesToProcessOf tree currentFiles)
    (hf : fetch p = Except.error msg) :
    alookup p (fetchAllFilesContent fetch (some rd) (some tree) currentFiles).1 =
      some (errMarker msg) ∧
    (fetchAllFilesContent fetch (some rd) (some tree) currentFiles).2 = none ∧
    (∀ q ∈ filesToProcessOf tree currentFiles,
      alookup q (fetchAllFilesContent fetch (some rd) (some tree) currentFiles).1 =
        some (resultFor fetch q)) ∧
    (∀ (fetch2 : String → Except String String) (cur2 : List (String × String)),
      (fetchAllFilesContent fetch2 (some rd) (some tree) cur2).2 ≠ none →
        cur2 = [] ∧ filesToProcessOf tree cur2 = []) := by
  have hlne : filesToProcessOf tree currentFiles ≠ [] := List.ne_nil_of_mem hp
  have hmne : mergeFetched fetch (filesToProcessOf tree currentFiles) currentFiles ≠ [] := by
    intro hnil
    exact hlne (mergeFetched_eq_nil fetch _ _ hnil).2
  have hres : fetchAllFilesContent fetch (some rd) (some tree) currentFiles =
      (mergeFetched fetch (filesToProcessOf tree currentFiles) currentFiles, none) := by
    rw [fetchAllFilesContent_eval, if_neg hmne]
  refine ⟨?_, ?_, ?_, ?_⟩
  · rw [hres]
    show alookup p (mergeFetched fetch (filesToProcessOf tree currentFiles) currentFiles) =
      some (errMarker msg)
    rw [alookup_mergeFetched fetch _ _ p, if_pos hp]
    simp [resultFor, hf]
  · rw [hres]
  · intro q hq
    rw [hres]
    show alookup q (mergeFetched fetch (filesToProcessOf tree currentFiles) currentFiles) =
      some (resultFor fetch q)
    rw [alookup_mergeFetched fetch _ _ q, if_pos hq]
  · intro fetch2 cur2 herr
    by_cases hm2 : mergeFetched fetch2 (filesToProcessOf tree cur2) cur2 = []
    · obtain ⟨h1, h2⟩ := mergeFetched_eq_nil fetch2 _ _ hm2
      exact ⟨h1, h2⟩
    · exfalso
      apply herr
      rw [fetchAllFilesContent_eval, if_neg hm2]

def c4Fetch : String → Except String String := fun _ => Except.error (r"boom")

def c4Path : String := r"a.txt"

def c4Tree : FileNode := FileNode.node c4Path c4Path (r"file") []

def c4Repo : RepoData := ⟨r"u", r"o", r"r", r"b"⟩

/-- Witness for `fetchAllFilesContent_per_file_isolation`: a one-file tree
whose fetch always fails. -/
theorem fetchAllFilesContent_per_file_isolation_witness :
    (c4Path ∈ filesToProcessOf c4Tree [] ∧ c4Fetch c4Path = Except.error (r"boom")) ∧
    alookup c4Path (fetchAllFilesContent c4Fetch (some c4Repo) (some c4Tree) []).1 =
      some (errMarker (r"boom")) ∧
    (fetchAllFilesContent c4Fetch (some c4Repo) (some c4Tree) []).2 = none := by
  have h := fetchAllFilesContent_per_file_isolation c4Fetch c4Repo c4Tree [] c4Path (r"boom")
    (by decide) rfl
  exact ⟨⟨by decide, rfl⟩, h.1, h.2.1⟩

def cexFetch : String → Except String String := fun _ => Except.ok (r"")

/-- Claim C8 (counterexample): the batch fetch is not idempotent as
claimed.  A provider file whose decoded content is the empty string (the
source's `getFileContent` returns `''` for, e.g., an empty file) is stored
as `''`; on a second call seeded with the first call's output the
JS-truthiness check `!currentFiles[path]` treats that entry as absent, so
the path is fetched again — the second call's set of files to process is
`[a.txt]`, not empty. -/
theorem fetchAllFilesContent_idempotence_cex :
    filesToProcessOf c4Tree
        (fetchAllFilesContent cexFetch (some c4Repo) (some c4Tree) []).1 = [c4Path] ∧
    (fetchAllFilesContent cexFetch (some c4Repo) (some c4Tree) []).2 = none ∧
    ([c4Path] : List String) ≠ [] := by
  refine ⟨by decide, by decide, by decide⟩

/-- Claim C8 (amended): the batch fetch is idempotent provided no fetched
file decodes to the empty string (for empty-content files the JS
truthiness of `!currentFiles[path]` makes the second call re-fetch them):
under that proviso, a second call seeded with the first call's output has
nothing left to process — every eligible path is skipped as already
present — and returns exactly the first call's result. -/
theorem fetchAllFilesContent_idempotent
    (fetch : String → Except String String) (rd : RepoData) (tree : FileNode)
    (currentFiles : List (String × String))
    (hfetch : ∀ p r, fetch p = Except.ok r → r ≠ "") :
    filesToProcessOf tree
        (fetchAllFilesContent fetch (some rd) (some tree) currentFiles).1 = [] ∧
    fetchAllFilesContent fetch (some rd) (some tree)
        (fetchAllFilesContent fetch (some rd) (some tree) currentFiles).1 =
      fetchAllFilesContent fetch (some rd) (some tree) currentFiles := by
  by_cases hm : mergeFetched fetch (filesToProcessOf tree currentFiles) currentFiles = []
  · obtain ⟨hcur, hltp⟩ := mergeFetched_eq_nil fetch _ _ hm
    subst hcur
    have hres : fetchAllFilesContent fetch (some rd) (some tree) [] =
        ([], some (rewriteRateLimit noFilesMsg)) := by
      rw [fetchAllFilesContent_eval, if_pos hm]
    constructor
    · rw [hres]
      exact hltp
    · rw [hres]
      show fetchAllFilesContent fetch (some rd) (some tree) [] = _
      rw [hres]
  · have hfilter : filesToProcessOf tree
        (mergeFetched fetch (filesToProcessOf tree currentFiles) currentFiles) = [] := by
      apply filter_eq_nil_of_false
      intro q hq
      by_cases hbin : isLikelyBinaryFile q
      · simp [hbin]
      · have htrM : truthy
            (mergeFetched fetch (filesToProcessOf tree currentFiles) currentFiles) q = true := by
          by_cases hql : q ∈ filesToProcessOf tree currentFiles
          · have hlook := alookup_mergeFetched fetch (filesToProcessOf tree currentFiles)
              currentFiles q
            rw [if_pos hql] at hlook
            cases hfq : fetch q with
            | ok c =>
              have hc : resultFor fetch q = c := by simp [resultFor, hfq]
              rw [hc] at hlook
              simp [truthy, hlook, hfetch q c hfq]
            | error e =>
              have hc : resultFor fetch q = errMarker e := by simp [resultFor, hfq]
              rw [hc] at hlook
              simp [truthy, hlook, errMarker_ne_empty e]
          · have htr : truthy currentFiles q = true := by
              by_contra hcon
              apply hql
              unfold filesToProcessOf
              refine List.mem_filter.2 ⟨hq, ?_⟩
              simp [hbin, Bool.not_eq_true _ ▸ hcon]
            have hlook := alookup_mergeFetched fetch (filesToProcessOf tree currentFiles)
              currentFiles q
            rw [if_neg hql] at hlook
            simp only [truthy, hlook]
            simpa [truthy] using htr
        simp [hbin, htrM]
    have hres : fetchAllFilesContent fetch (some rd) (some tree) currentFiles =
        (mergeFetched fetch (filesToProcessOf tree currentFiles) currentFiles, none) := by
      rw [fetchAllFilesContent_eval, if_neg hm]
    constructor
    · rw [hres]
      exact hfilter
    · rw [hres]
      show fetchAllFilesContent fetch (some rd) (some tree)
          (mergeFetched fetch (filesToProcessOf tree currentFiles) currentFiles) = _
      rw [fetchAllFilesContent_eval, hfilter]
      rw [show mergeFetched fetch []
        (mergeFetched fetch (filesToProcessOf tree currentFiles) currentFiles) =
        mergeFetched fetch (filesToProcessOf tree currentFiles) currentFiles from rfl]
      rw [if_neg hm]

def c8Fetch : String → Except String String := fun _ => Except.ok (r"hello")

/-- Witness for `fetchAllFilesContent_idempotent`: a one-file tree whose
fetch returns nonempty content. -/
theorem fetchAllFilesContent_idempotent_witness :
    (∀ p r, c8Fetch p = Except.ok r → r ≠ "") ∧
    filesToProcessOf c4Tree
        (fetchAllFilesContent c8Fetch (some c4Repo) (some c4Tree) []).1 = [] ∧
    fetchAllFilesContent c8Fetch (some c4Repo) (some c4Tree)
        (fetchAllFilesContent c8Fetch (some c4Repo) (some c4Tree) []).1 =
      fetchAllFilesContent c8Fetch (some c4Repo) (some c4Tree) [] := by
  have hf : ∀ p r, c8Fetch p = Except.ok r → r ≠ "" := fun p r h => by
    injection h with h2
    rw [← h2]
    decide
  have h := fetchAllFilesContent_idempotent c8Fetch c4Repo c4Tree [] hf
  exact ⟨hf, h.1, h.2⟩
